import Mathlib

/-!
# Order book and matching loop of `stock_trading_engine.cpp`

A shallow embedding of the per-instrument order lists (`OrderList`), the global
intake function `addOrder` and the matching loop `matchOrder`, followed by the
properties proved about them.

Modelling conventions.

* A heap node `Order` is a record of its four data fields together with `addr`, the
  address of the node.  A raw pointer `Order*` is the address; the null pointer is
  `none`.  The `next` links are the list structure: an `OrderList` is the chain of
  nodes reachable from `head`, head first.
* `int` is a 32-bit two's complement integer.  Fields are mathematical integers and the
  one arithmetic operation of the program, `quantity -= tradeQuantity`, is reduced with
  `wrapInt`.
* Console output is not modelled, except the "Executing trade" records, which are
  collected as a list of `Trade`s in execution order.
* The mutexes are not modelled: every function is executed atomically, one call at a
  time.
-/

namespace StockTradingEngine

/-- Number of instruments, `#define MAX_STOCKS 1024`. -/
def MAX_STOCKS : Nat := 1024

/-- Largest value of an `int`. -/
def INT_MAX : Int := 2147483647

/-- Smallest value of an `int`. -/
def INT_MIN : Int := -2147483648

/-- Reduction of a mathematical integer to the `int` it is stored as. -/
def wrapInt (x : Int) : Int := (x + 2147483648) % 4294967296 - 2147483648

/-- Values an `int` can hold. -/
def isInt (x : Int) : Prop := INT_MIN ≤ x ∧ x ≤ INT_MAX

instance (x : Int) : Decidable (isInt x) := by
  unfold isInt; infer_instance

/-- Node of the linked list, `struct Order`; `addr` is the identity of the node. -/
structure Order where
  addr : Nat
  type : Char
  ticket : Int
  quantity : Int
  price : Int
deriving DecidableEq

/-- Chain of nodes owned by `OrderList::head`, head first. -/
abbrev OrderList := List Order

/-- Record of one "Executing trade" message. -/
structure Trade where
  ticket : Int
  quantity : Int
  price : Int
deriving DecidableEq

namespace OrderList

/-- Method `OrderList::addOrder`: the new node becomes the head and the old chain
its tail. -/
def addOrder (order : Order) (l : OrderList) : OrderList := order :: l

/-- The `while (current)` loop of `OrderList::getBestOrder`, started with a given
`bestOrder` on the rest of the chain. -/
def scan : Option Order → OrderList → Option Order
  | bestOrder, [] => bestOrder
  | none, current :: rest => scan (some current) rest
  | some best, current :: rest =>
    if (current.type = 'B' ∧ current.price > best.price) ∨
        (current.type = 'S' ∧ current.price < best.price) then
      scan (some current) rest
    else
      scan (some best) rest

/-- Method `OrderList::getBestOrder`.  The `type` argument only selects the text of
a log line. -/
def getBestOrder (type : Char) (l : OrderList) : Option Order :=
  let _ := type
  scan none l

/-- Method `OrderList::removeOrder`: unlink the first node whose address is `order`. -/
def removeOrder (order : Nat) : OrderList → OrderList
  | [] => []
  | current :: rest =>
    if current.addr = order then rest else current :: removeOrder order rest

/-- The assignment `p->quantity -= tradeQuantity` through the pointer `p = order`,
seen from the list that owns the node. -/
def subQuantity (order : Nat) (tradeQuantity : Int) (l : OrderList) : OrderList :=
  l.map fun o =>
    if o.addr = order then { o with quantity := wrapInt (o.quantity - tradeQuantity) } else o

end OrderList

/-- The two lists of one instrument, `buyOrder[ticket]` and `sellOrder[ticket]`. -/
structure Book where
  buy : OrderList
  sell : OrderList
deriving DecidableEq

/-- Number of orders resting on the two sides. -/
def Book.size (b : Book) : Nat := b.buy.length + b.sell.length

/-- One pass through the body of `while (true)` in `matchOrder`: `none` is a `break`,
otherwise the trade that was logged and the lists after the pass. -/
def matchStep (ticket : Int) (b : Book) : Option (Trade × Book) :=
  match OrderList.getBestOrder 'B' b.buy, OrderList.getBestOrder 'S' b.sell with
  | some buy, some sell =>
    if buy.price < sell.price then none
    else
      let tradeQuantity := min buy.quantity sell.quantity
      let buyQuantity := wrapInt (buy.quantity - tradeQuantity)
      let sellQuantity := wrapInt (sell.quantity - tradeQuantity)
      let buy1 := OrderList.subQuantity buy.addr tradeQuantity b.buy
      let sell1 := OrderList.subQuantity sell.addr tradeQuantity b.sell
      let buy2 := if buyQuantity = 0 then OrderList.removeOrder buy.addr buy1 else buy1
      let sell2 := if sellQuantity = 0 then OrderList.removeOrder sell.addr sell1 else sell1
      some (⟨ticket, tradeQuantity, buy.price⟩, ⟨buy2, sell2⟩)
  | _, _ => none

/-- The loop `while (true)` of `matchOrder`, run for at most `fuel` passes; `none`
means the passes were used up before a `break`. -/
def matchLoop (ticket : Int) : Nat → Book → Option (List Trade × Book)
  | 0, _ => none
  | fuel + 1, b =>
    match matchStep ticket b with
    | none => some ([], b)
    | some (t, b1) =>
      match matchLoop ticket fuel b1 with
      | none => none
      | some (ts, b2) => some (t :: ts, b2)

/-- The global arrays `sellOrder[MAX_STOCKS]` and `buyOrder[MAX_STOCKS]`. -/
structure Engine where
  sellOrder : Fin MAX_STOCKS → OrderList
  buyOrder : Fin MAX_STOCKS → OrderList

/-- Array element selected by the subscript `[ticket]`; `none` when the subscript is
outside the array, where the program has no defined behaviour.  The source makes no such
test: `none` marks the calls about which this model says nothing, not a call that was
rejected. -/
def slot (ticket : Int) : Option (Fin MAX_STOCKS) :=
  if h : 0 ≤ ticket ∧ ticket < (MAX_STOCKS : Int) then
    some ⟨ticket.toNat, by
      have h1 := h.1
      have h2 := h.2
      omega⟩
  else none

/-- The lists of instrument `i`. -/
def Engine.book (e : Engine) (i : Fin MAX_STOCKS) : Book := ⟨e.buyOrder i, e.sellOrder i⟩

/-- Free function `addOrder`.  `addr` is the address `std::make_unique` gave the new
node.  `none`: subscript outside the arrays. -/
def addOrder (addr : Nat) (type : Char) (ticket quantity price : Int) (e : Engine) :
    Option Engine :=
  let order : Order := ⟨addr, type, ticket, quantity, price⟩
  match slot ticket with
  | none => none
  | some i =>
    if type = 'B' then
      some { e with buyOrder := Function.update e.buyOrder i (OrderList.addOrder order (e.buyOrder i)) }
    else
      some { e with sellOrder := Function.update e.sellOrder i (OrderList.addOrder order (e.sellOrder i)) }

/-- Free function `matchOrder`: the trades logged, in order, and the arrays when the
call returns.  The loop is run with one pass more than there are orders on the two
sides of the instrument, which `matchLoop_total` shows is always enough.  `none`:
subscript outside the arrays. -/
def matchOrder (ticket : Int) (e : Engine) : Option (List Trade × Engine) :=
  match slot ticket with
  | none => none
  | some i =>
    match matchLoop ticket ((e.book i).size + 1) (e.book i) with
    | none => none
    | some (trades, b) =>
      some (trades, { sellOrder := Function.update e.sellOrder i b.sell,
                      buyOrder := Function.update e.buyOrder i b.buy })

/-- Engine with every list empty, the state at program start. -/
def Engine.empty : Engine := ⟨fun _ => [], fun _ => []⟩

/-- Engine whose instrument `i` holds the given lists and whose other lists are empty. -/
def Engine.single (i : Fin MAX_STOCKS) (buy sell : OrderList) : Engine :=
  ⟨Function.update (fun _ => []) i sell, Function.update (fun _ => []) i buy⟩

/-- Sum of the quantities resting in a list. -/
def totalQuantity (l : OrderList) : Int := (l.map Order.quantity).sum

/-- Sum of the quantities of a list of trades. -/
def tradedQuantity (ts : List Trade) : Int := (ts.map Trade.quantity).sum

/-- The addresses of the nodes of a list are pairwise different. -/
def distinctAddr (l : OrderList) : Prop := (l.map Order.addr).Nodup

instance (l : OrderList) : Decidable (distinctAddr l) := by
  unfold distinctAddr; infer_instance

/-- Every quantity in the list is a positive `int`: the orders are live. -/
def liveQuantities (l : OrderList) : Prop := ∀ o ∈ l, 0 < o.quantity ∧ o.quantity ≤ INT_MAX

instance (l : OrderList) : Decidable (liveQuantities l) := by
  unfold liveQuantities; infer_instance

/-- Sample instrument for the worked instances below. -/
def sampleSlot : Fin MAX_STOCKS := ⟨7, by decide⟩

/-- Sample state: instrument 7 holds the bids 10 at 100 and 5 at 50 and the asks 12 at 90
and 4 at 95; every other list is empty. -/
def sampleEngine : Engine :=
  Engine.single sampleSlot
    [⟨1, 'B', 7, 10, 100⟩, ⟨3, 'B', 7, 5, 50⟩] [⟨2, 'S', 7, 12, 90⟩, ⟨4, 'S', 7, 4, 95⟩]

/-- The list built by calling `OrderList::addOrder` with the given nodes, first call
first, on an empty list. -/
def OrderList.insertAll (orders : List Order) : OrderList :=
  orders.foldl (fun l o => OrderList.addOrder o l) []

/-- The fields of a node the matching loop never writes, with the node's identity. -/
def Order.fixedFields (o : Order) : Nat × Char × Int × Int := (o.addr, o.type, o.ticket, o.price)

open OrderList
/-! ## The scan of `getBestOrder` -/

theorem scan_eq_none (best : Option Order) (l : OrderList) :
    scan best l = none ↔ best = none ∧ l = [] := by
  induction l generalizing best with
  | nil => cases best <;> simp [scan]
  | cons c rest ih =>
    cases best with
    | none => simp [scan, ih]
    | some b =>
      simp only [scan]
      split <;> simp [ih]

theorem scan_mem (best : Option Order) (l : OrderList) (r : Order)
    (h : scan best l = some r) : r ∈ l ∨ best = some r := by
  induction l generalizing best with
  | nil => cases best <;> simp_all [scan]
  | cons c rest ih =>
    cases best with
    | none =>
      simp only [scan] at h
      rcases ih _ h with h1 | h1
      · exact Or.inl (List.mem_cons_of_mem _ h1)
      · left; simp at h1; simp [h1]
    | some b =>
      simp only [scan] at h
      split at h
      · rcases ih _ h with h1 | h1
        · exact Or.inl (List.mem_cons_of_mem _ h1)
        · left; simp at h1; simp [h1]
      · rcases ih _ h with h1 | h1
        · exact Or.inl (List.mem_cons_of_mem _ h1)
        · exact Or.inr h1

theorem scan_buy_max (b : Order) (l : OrderList) (r : Order)
    (hall : ∀ o ∈ l, o.type = 'B') (h : scan (some b) l = some r) :
    b.price ≤ r.price ∧ ∀ o ∈ l, o.price ≤ r.price := by
  induction l generalizing b with
  | nil => simp_all [scan]
  | cons c rest ih =>
    have hc : c.type = 'B' := hall c (List.mem_cons_self _ _)
    have hrest : ∀ o ∈ rest, o.type = 'B' := fun o ho => hall o (List.mem_cons_of_mem _ ho)
    simp only [scan, hc, true_and] at h
    have hne : ¬ ('B' = 'S') := by decide
    simp only [hne, false_and, or_false] at h
    split at h
    · obtain ⟨h1, h2⟩ := ih c hrest h
      refine ⟨by omega, ?_⟩
      intro o ho
      rcases List.mem_cons.1 ho with rfl | ho
      · exact h1
      · exact h2 o ho
    · obtain ⟨h1, h2⟩ := ih b hrest h
      refine ⟨h1, ?_⟩
      intro o ho
      rcases List.mem_cons.1 ho with rfl | ho
      · omega
      · exact h2 o ho

theorem scan_sell_min (b : Order) (l : OrderList) (r : Order)
    (hall : ∀ o ∈ l, o.type = 'S') (h : scan (some b) l = some r) :
    r.price ≤ b.price ∧ ∀ o ∈ l, r.price ≤ o.price := by
  induction l generalizing b with
  | nil => simp_all [scan]
  | cons c rest ih =>
    have hc : c.type = 'S' := hall c (List.mem_cons_self _ _)
    have hrest : ∀ o ∈ rest, o.type = 'S' := fun o ho => hall o (List.mem_cons_of_mem _ ho)
    simp only [scan, hc, true_and] at h
    have hne : ¬ ('S' = 'B') := by decide
    simp only [hne, false_and, false_or] at h
    split at h
    · obtain ⟨h1, h2⟩ := ih c hrest h
      refine ⟨by omega, ?_⟩
      intro o ho
      rcases List.mem_cons.1 ho with rfl | ho
      · exact h1
      · exact h2 o ho
    · obtain ⟨h1, h2⟩ := ih b hrest h
      refine ⟨h1, ?_⟩
      intro o ho
      rcases List.mem_cons.1 ho with rfl | ho
      · omega
      · exact h2 o ho

theorem getBestOrder_eq_none (ty : Char) (l : OrderList) :
    getBestOrder ty l = none ↔ l = [] := by
  simp [getBestOrder, scan_eq_none]

theorem getBestOrder_mem (ty : Char) (l : OrderList) (r : Order)
    (h : getBestOrder ty l = some r) : r ∈ l := by
  rcases scan_mem none l r h with h1 | h1
  · exact h1
  · simp at h1

theorem getBestOrder_buy_max (ty : Char) (l : OrderList) (r : Order)
    (hall : ∀ o ∈ l, o.type = 'B') (h : getBestOrder ty l = some r) :
    ∀ o ∈ l, o.price ≤ r.price := by
  cases l with
  | nil => simp
  | cons c rest =>
    simp only [getBestOrder, scan] at h
    obtain ⟨h1, h2⟩ := scan_buy_max c rest r (fun o ho => hall o (List.mem_cons_of_mem _ ho)) h
    intro o ho
    rcases List.mem_cons.1 ho with rfl | ho
    · exact h1
    · exact h2 o ho

theorem getBestOrder_sell_min (ty : Char) (l : OrderList) (r : Order)
    (hall : ∀ o ∈ l, o.type = 'S') (h : getBestOrder ty l = some r) :
    ∀ o ∈ l, r.price ≤ o.price := by
  cases l with
  | nil => simp
  | cons c rest =>
    simp only [getBestOrder, scan] at h
    obtain ⟨h1, h2⟩ := scan_sell_min c rest r (fun o ho => hall o (List.mem_cons_of_mem _ ho)) h
    intro o ho
    rcases List.mem_cons.1 ho with rfl | ho
    · exact h1
    · exact h2 o ho


/-! ## Unlinking and updating a node -/

theorem removeOrder_length (a : Nat) (l : OrderList) (h : a ∈ l.map Order.addr) :
    (removeOrder a l).length + 1 = l.length := by
  induction l with
  | nil => simp at h
  | cons c rest ih =>
    by_cases hc : c.addr = a
    · simp [removeOrder, hc]
    · have h1 : a ∈ rest.map Order.addr := by
        rcases List.mem_map.1 h with ⟨o, ho, hoa⟩
        rcases List.mem_cons.1 ho with rfl | ho
        · exact absurd hoa hc
        · exact List.mem_map.2 ⟨o, ho, hoa⟩
      simp [removeOrder, hc, ih h1]

theorem removeOrder_absent (a : Nat) (l : OrderList) (h : ∀ o ∈ l, o.addr ≠ a) :
    removeOrder a l = l := by
  induction l with
  | nil => rfl
  | cons c rest ih =>
    have hc : c.addr ≠ a := h c (List.mem_cons_self _ _)
    simp [removeOrder, hc, ih (fun o ho => h o (List.mem_cons_of_mem _ ho))]

theorem removeOrder_split (a : Nat) (l1 l2 : OrderList) (x : Order)
    (h1 : ∀ o ∈ l1, o.addr ≠ a) (hx : x.addr = a) :
    removeOrder a (l1 ++ x :: l2) = l1 ++ l2 := by
  induction l1 with
  | nil => simp [removeOrder, hx]
  | cons c rest ih =>
    have hc : c.addr ≠ a := h1 c (List.mem_cons_self _ _)
    simp [removeOrder, hc, ih (fun o ho => h1 o (List.mem_cons_of_mem _ ho))]

theorem subQuantity_absent (a : Nat) (t : Int) (l : OrderList) (h : ∀ o ∈ l, o.addr ≠ a) :
    subQuantity a t l = l := by
  induction l with
  | nil => rfl
  | cons c rest ih =>
    have hc : c.addr ≠ a := h c (List.mem_cons_self _ _)
    have := ih (fun o ho => h o (List.mem_cons_of_mem _ ho))
    simp only [subQuantity] at this
    simp [subQuantity, hc, this]

theorem subQuantity_split (a : Nat) (t : Int) (l1 l2 : OrderList) (x : Order)
    (h1 : ∀ o ∈ l1, o.addr ≠ a) (h2 : ∀ o ∈ l2, o.addr ≠ a) (hx : x.addr = a) :
    subQuantity a t (l1 ++ x :: l2) =
      l1 ++ { x with quantity := wrapInt (x.quantity - t) } :: l2 := by
  have e1 := subQuantity_absent a t l1 h1
  have e2 := subQuantity_absent a t l2 h2
  simp only [subQuantity] at e1 e2
  simp [subQuantity, hx, e1, e2]

theorem subQuantity_addr (a : Nat) (t : Int) (l : OrderList) :
    (subQuantity a t l).map Order.addr = l.map Order.addr := by
  simp only [subQuantity, List.map_map]
  apply List.map_congr_left
  intro o _
  simp only [Function.comp]
  split <;> rfl

theorem subQuantity_length (a : Nat) (t : Int) (l : OrderList) :
    (subQuantity a t l).length = l.length := by
  simp [subQuantity]

theorem split_of_mem (l : OrderList) (x : Order) (hd : distinctAddr l) (hx : x ∈ l) :
    ∃ l1 l2, l = l1 ++ x :: l2 ∧ (∀ o ∈ l1, o.addr ≠ x.addr) ∧ (∀ o ∈ l2, o.addr ≠ x.addr) := by
  obtain ⟨l1, l2, rfl⟩ := List.append_of_mem hx
  refine ⟨l1, l2, rfl, ?_, ?_⟩
  · intro o ho hEq
    unfold distinctAddr at hd
    rw [List.map_append, List.map_cons] at hd
    have := (List.nodup_append.1 hd).2.2
    exact this (List.mem_map.2 ⟨o, ho, hEq⟩) (List.mem_cons_self _ _)
  · intro o ho hEq
    unfold distinctAddr at hd
    rw [List.map_append, List.map_cons] at hd
    have := ((List.nodup_append.1 hd).2.1)
    rw [List.nodup_cons] at this
    exact this.1 (List.mem_map.2 ⟨o, ho, hEq⟩)

theorem wrapInt_zero : wrapInt 0 = 0 := by decide

theorem wrapInt_of_isInt (x : Int) (h : isInt x) : wrapInt x = x := by
  unfold isInt INT_MIN INT_MAX at h
  unfold wrapInt
  omega

/-! ## One pass and the loop -/

theorem matchStep_some (t : Int) (b : Book) (tr : Trade) (b1 : Book)
    (h : matchStep t b = some (tr, b1)) :
    ∃ buy sell, getBestOrder 'B' b.buy = some buy ∧ getBestOrder 'S' b.sell = some sell ∧
      sell.price ≤ buy.price ∧
      tr = ⟨t, min buy.quantity sell.quantity, buy.price⟩ ∧
      b1.buy = (if wrapInt (buy.quantity - min buy.quantity sell.quantity) = 0 then
          removeOrder buy.addr (subQuantity buy.addr (min buy.quantity sell.quantity) b.buy)
        else subQuantity buy.addr (min buy.quantity sell.quantity) b.buy) ∧
      b1.sell = (if wrapInt (sell.quantity - min buy.quantity sell.quantity) = 0 then
          removeOrder sell.addr (subQuantity sell.addr (min buy.quantity sell.quantity) b.sell)
        else subQuantity sell.addr (min buy.quantity sell.quantity) b.sell) := by
  unfold matchStep at h
  split at h
  · rename_i buy sell hb hs
    split at h
    · simp at h
    · rename_i hlt
      simp only [Option.some.injEq, Prod.mk.injEq] at h
      obtain ⟨h1, h2⟩ := h
      refine ⟨buy, sell, hb, hs, by omega, h1.symm, ?_, ?_⟩
      · rw [← h2]
      · rw [← h2]
  · simp at h

theorem matchStep_none (t : Int) (b : Book) :
    matchStep t b = none ↔
      b.buy = [] ∨ b.sell = [] ∨
        ∃ buy sell, getBestOrder 'B' b.buy = some buy ∧ getBestOrder 'S' b.sell = some sell ∧
          buy.price < sell.price := by
  unfold matchStep
  split
  · rename_i buy sell hb hs
    have hb0 : b.buy ≠ [] := fun h0 => by rw [(getBestOrder_eq_none 'B' b.buy).2 h0] at hb; simp at hb
    have hs0 : b.sell ≠ [] := fun h0 => by rw [(getBestOrder_eq_none 'S' b.sell).2 h0] at hs; simp at hs
    split
    · rename_i hlt
      simp only [true_iff]
      exact Or.inr (Or.inr ⟨buy, sell, hb, hs, hlt⟩)
    · rename_i hlt
      constructor
      · intro h
        simp at h
      · rintro (h | h | ⟨x, y, hx, hy, hxy⟩)
        · exact absurd h hb0
        · exact absurd h hs0
        · rw [hb] at hx
          rw [hs] at hy
          simp only [Option.some.injEq] at hx hy
          subst hx; subst hy
          exact absurd hxy hlt
  · rename_i hnot
    simp only [true_iff]
    cases hb : getBestOrder 'B' b.buy with
    | none => exact Or.inl ((getBestOrder_eq_none 'B' b.buy).1 hb)
    | some buy =>
      cases hs : getBestOrder 'S' b.sell with
      | none => exact Or.inr (Or.inl ((getBestOrder_eq_none 'S' b.sell).1 hs))
      | some sell => exact absurd hs (hnot buy sell hb)

theorem min_sub_wrap (x y : Int) :
    wrapInt (x - min x y) = 0 ∨ wrapInt (y - min x y) = 0 := by
  rcases le_total x y with h | h
  · left; rw [min_eq_left h, sub_self]; exact wrapInt_zero
  · right; rw [min_eq_right h, sub_self]; exact wrapInt_zero

/-- A pass that trades lengthens neither list and shortens at least one of them by one
node: the selected order that holds the smaller quantity is brought to 0 and unlinked. -/
theorem matchStep_lengths (t : Int) (b : Book) (tr : Trade) (b1 : Book)
    (h : matchStep t b = some (tr, b1)) :
    b1.buy.length ≤ b.buy.length ∧ b1.sell.length ≤ b.sell.length ∧
      (b1.buy.length + 1 = b.buy.length ∨ b1.sell.length + 1 = b.sell.length) := by
  obtain ⟨buy, sell, hb, hs, -, -, e1, e2⟩ := matchStep_some t b tr b1 h
  have mb : buy.addr ∈
      (subQuantity buy.addr (min buy.quantity sell.quantity) b.buy).map Order.addr := by
    rw [subQuantity_addr]; exact List.mem_map.2 ⟨buy, getBestOrder_mem _ _ _ hb, rfl⟩
  have ms : sell.addr ∈
      (subQuantity sell.addr (min buy.quantity sell.quantity) b.sell).map Order.addr := by
    rw [subQuantity_addr]; exact List.mem_map.2 ⟨sell, getBestOrder_mem _ _ _ hs, rfl⟩
  have lb := removeOrder_length _ _ mb
  have ls := removeOrder_length _ _ ms
  rw [subQuantity_length] at lb ls
  have hb1 : b1.buy.length ≤ b.buy.length := by
    rw [e1]; split
    · omega
    · rw [subQuantity_length]
  have hs1 : b1.sell.length ≤ b.sell.length := by
    rw [e2]; split
    · omega
    · rw [subQuantity_length]
  refine ⟨hb1, hs1, ?_⟩
  rcases min_sub_wrap buy.quantity sell.quantity with h0 | h0
  · left; rw [e1, if_pos h0]; exact lb
  · right; rw [e2, if_pos h0]; exact ls

theorem matchStep_size (t : Int) (b : Book) (tr : Trade) (b1 : Book)
    (h : matchStep t b = some (tr, b1)) : b1.size < b.size := by
  obtain ⟨h1, h2, h3⟩ := matchStep_lengths t b tr b1 h
  unfold Book.size
  omega

theorem matchLoop_total (t : Int) (n : Nat) (b : Book) (h : b.size < n) :
    ∃ r, matchLoop t n b = some r ∧ r.1.length + r.2.size ≤ b.size := by
  induction n generalizing b with
  | zero => omega
  | succ n ih =>
    cases hstep : matchStep t b with
    | none => exact ⟨([], b), by simp [matchLoop, hstep]⟩
    | some p =>
      obtain ⟨tr, b1⟩ := p
      have hlt := matchStep_size t b tr b1 hstep
      obtain ⟨⟨ts, b2⟩, hr, hlen⟩ := ih b1 (by omega)
      refine ⟨(tr :: ts, b2), by simp [matchLoop, hstep, hr], ?_⟩
      simp only [List.length_cons] at hlen ⊢
      omega

theorem matchLoop_mono (t : Int) (n m : Nat) (b : Book) (r : List Trade × Book)
    (h : matchLoop t n b = some r) (hm : n ≤ m) : matchLoop t m b = some r := by
  induction n generalizing b m r with
  | zero => simp [matchLoop] at h
  | succ n ih =>
    obtain ⟨m, rfl⟩ : ∃ k, m = k + 1 := ⟨m - 1, by omega⟩
    simp only [matchLoop] at h ⊢
    cases hstep : matchStep t b with
    | none => simpa [hstep] using h
    | some p =>
      obtain ⟨tr, b1⟩ := p
      simp only [hstep] at h ⊢
      cases hr : matchLoop t n b1 with
      | none => simp [hr] at h
      | some r1 =>
        rw [ih m b1 r1 hr (by omega)]
        simpa [hr] using h

theorem matchLoop_unique (t : Int) (n m : Nat) (b : Book) (r r1 : List Trade × Book)
    (h : matchLoop t n b = some r) (h1 : matchLoop t m b = some r1) : r = r1 := by
  have e := matchLoop_mono t n (max n m) b r h (le_max_left _ _)
  have e1 := matchLoop_mono t m (max n m) b r1 h1 (le_max_right _ _)
  rw [e] at e1
  exact Option.some.inj e1

theorem matchLoop_induction (t : Int) (Inv : Book → Prop) (Q : Book → List Trade → Book → Prop)
    (hstop : ∀ b, Inv b → matchStep t b = none → Q b [] b)
    (hstep : ∀ b tr b1, Inv b → matchStep t b = some (tr, b1) →
      Inv b1 ∧ ∀ ts b2, Q b1 ts b2 → Q b (tr :: ts) b2)
    (n : Nat) (b : Book) (r : List Trade × Book) (hInv : Inv b)
    (h : matchLoop t n b = some r) : Q b r.1 r.2 := by
  induction n generalizing b r with
  | zero => simp [matchLoop] at h
  | succ n ih =>
    simp only [matchLoop] at h
    cases hs : matchStep t b with
    | none =>
      simp only [hs, Option.some.injEq] at h
      subst h
      exact hstop b hInv hs
    | some p =>
      obtain ⟨tr, b1⟩ := p
      simp only [hs] at h
      obtain ⟨hInv1, hQ⟩ := hstep b tr b1 hInv hs
      cases hr : matchLoop t n b1 with
      | none => simp [hr] at h
      | some r1 =>
        obtain ⟨ts, b2⟩ := r1
        simp only [hr, Option.some.injEq] at h
        subst h
        exact hQ ts b2 (ih b1 (ts, b2) hInv1 hr)

theorem slot_cast (i : Fin MAX_STOCKS) : slot ((i : Nat) : Int) = some i := by
  have h2 := i.2
  unfold slot
  have h : 0 ≤ ((i : Nat) : Int) ∧ ((i : Nat) : Int) < (MAX_STOCKS : Int) := by
    constructor <;> omega
  rw [dif_pos h]
  simp

theorem matchOrder_cast (i : Fin MAX_STOCKS) (e : Engine) :
    ∃ trades b, matchLoop ((i : Nat) : Int) ((e.book i).size + 1) (e.book i) = some (trades, b) ∧
      trades.length + b.size ≤ (e.book i).size ∧
      matchOrder ((i : Nat) : Int) e =
        some (trades, { sellOrder := Function.update e.sellOrder i b.sell,
                        buyOrder := Function.update e.buyOrder i b.buy }) := by
  obtain ⟨⟨trades, b⟩, hr, hlen⟩ := matchLoop_total ((i : Nat) : Int) _ (e.book i) (Nat.lt_succ_self _)
  refine ⟨trades, b, hr, hlen, ?_⟩
  simp [matchOrder, slot_cast, hr]

/-! ## What a pass does to the two lists -/

theorem matchStep_split (t : Int) (b : Book) (tr : Trade) (b1 : Book)
    (hdB : distinctAddr b.buy) (hdS : distinctAddr b.sell)
    (h : matchStep t b = some (tr, b1)) :
    ∃ buy sell l1 l2 r1 r2,
      getBestOrder 'B' b.buy = some buy ∧ getBestOrder 'S' b.sell = some sell ∧
      sell.price ≤ buy.price ∧
      b.buy = l1 ++ buy :: l2 ∧ b.sell = r1 ++ sell :: r2 ∧
      tr = ⟨t, min buy.quantity sell.quantity, buy.price⟩ ∧
      b1.buy = (if wrapInt (buy.quantity - min buy.quantity sell.quantity) = 0 then l1 ++ l2
        else l1 ++ { buy with
          quantity := wrapInt (buy.quantity - min buy.quantity sell.quantity) } :: l2) ∧
      b1.sell = (if wrapInt (sell.quantity - min buy.quantity sell.quantity) = 0 then r1 ++ r2
        else r1 ++ { sell with
          quantity := wrapInt (sell.quantity - min buy.quantity sell.quantity) } :: r2) := by
  obtain ⟨buy, sell, hb, hs, hp, htr, e1, e2⟩ := matchStep_some t b tr b1 h
  obtain ⟨l1, l2, hl, hl1, hl2⟩ := split_of_mem b.buy buy hdB (getBestOrder_mem _ _ _ hb)
  obtain ⟨r1, r2, hr, hr1, hr2⟩ := split_of_mem b.sell sell hdS (getBestOrder_mem _ _ _ hs)
  refine ⟨buy, sell, l1, l2, r1, r2, hb, hs, hp, hl, hr, htr, ?_, ?_⟩
  · rw [e1, hl, subQuantity_split _ _ l1 l2 buy hl1 hl2 rfl]
    split
    · exact removeOrder_split buy.addr l1 l2 _ hl1 rfl
    · rfl
  · rw [e2, hr, subQuantity_split _ _ r1 r2 sell hr1 hr2 rfl]
    split
    · exact removeOrder_split sell.addr r1 r2 _ hr1 rfl
    · rfl

theorem removeOrder_sublist (a : Nat) (l : OrderList) : List.Sublist (removeOrder a l) l := by
  induction l with
  | nil => exact List.Sublist.refl _
  | cons c rest ih =>
    simp only [removeOrder]
    split
    · exact List.sublist_cons_self _ _
    · exact List.Sublist.cons₂ _ ih

/-- Every node left on the buy side by a pass was there before it, with the same
address, type, ticket and price. -/
theorem matchStep_buy_mem (t : Int) (b : Book) (tr : Trade) (b1 : Book)
    (h : matchStep t b = some (tr, b1)) (o1 : Order) (ho : o1 ∈ b1.buy) :
    ∃ o ∈ b.buy, o1.addr = o.addr ∧ o1.type = o.type ∧ o1.ticket = o.ticket ∧
      o1.price = o.price := by
  obtain ⟨buy, sell, -, -, -, -, e1, -⟩ := matchStep_some t b tr b1 h
  have hm : o1 ∈ subQuantity buy.addr (min buy.quantity sell.quantity) b.buy := by
    rw [e1] at ho
    split at ho
    · exact (removeOrder_sublist _ _).subset ho
    · exact ho
  simp only [subQuantity, List.mem_map] at hm
  obtain ⟨o, hol, hoe⟩ := hm
  refine ⟨o, hol, ?_⟩
  split at hoe <;> subst hoe <;> simp

/-- Every node left on the sell side by a pass was there before it, with the same
address, type, ticket and price. -/
theorem matchStep_sell_mem (t : Int) (b : Book) (tr : Trade) (b1 : Book)
    (h : matchStep t b = some (tr, b1)) (o1 : Order) (ho : o1 ∈ b1.sell) :
    ∃ o ∈ b.sell, o1.addr = o.addr ∧ o1.type = o.type ∧ o1.ticket = o.ticket ∧
      o1.price = o.price := by
  obtain ⟨buy, sell, -, -, -, -, -, e2⟩ := matchStep_some t b tr b1 h
  have hm : o1 ∈ subQuantity sell.addr (min buy.quantity sell.quantity) b.sell := by
    rw [e2] at ho
    split at ho
    · exact (removeOrder_sublist _ _).subset ho
    · exact ho
  simp only [subQuantity, List.mem_map] at hm
  obtain ⟨o, hol, hoe⟩ := hm
  refine ⟨o, hol, ?_⟩
  split at hoe <;> subst hoe <;> simp

theorem matchStep_distinct (t : Int) (b : Book) (tr : Trade) (b1 : Book)
    (hdB : distinctAddr b.buy) (hdS : distinctAddr b.sell)
    (h : matchStep t b = some (tr, b1)) : distinctAddr b1.buy ∧ distinctAddr b1.sell := by
  obtain ⟨buy, sell, -, -, -, -, e1, e2⟩ := matchStep_some t b tr b1 h
  have k : ∀ (a : Nat) (q : Int) (l : OrderList), distinctAddr l →
      distinctAddr (subQuantity a q l) ∧ distinctAddr (removeOrder a (subQuantity a q l)) := by
    intro a q l hd
    have h1 : distinctAddr (subQuantity a q l) := by
      unfold distinctAddr; rw [subQuantity_addr]; exact hd
    exact ⟨h1, List.Nodup.sublist ((removeOrder_sublist a _).map Order.addr) h1⟩
  constructor
  · rw [e1]; split
    · exact (k _ _ _ hdB).2
    · exact (k _ _ _ hdB).1
  · rw [e2]; split
    · exact (k _ _ _ hdS).2
    · exact (k _ _ _ hdS).1

/-! ## Selection of the best order -/

/-- C1: on a list whose orders all have type `'B'` (`side = 'B'`), `getBestOrder`
returns none exactly when the list is empty and otherwise an order of the list whose
price is at least every price in the list; on a list whose orders all have type `'S'`
(`side = 'S'`) it returns none exactly when the list is empty and otherwise an order of
the list whose price is at most every price in the list.  The `type` argument of the
call plays no part. -/
theorem getBestOrder_extreme (type side : Char) (l : OrderList)
    (hside : side = 'B' ∨ side = 'S') (hall : ∀ o ∈ l, o.type = side) :
    (getBestOrder type l = none ↔ l = []) ∧
    (l ≠ [] → ∃ best, getBestOrder type l = some best ∧ best ∈ l ∧
      ∀ o ∈ l, if side = 'B' then o.price ≤ best.price else best.price ≤ o.price) := by
  refine ⟨getBestOrder_eq_none type l, ?_⟩
  intro hne
  cases hb : getBestOrder type l with
  | none => exact absurd ((getBestOrder_eq_none type l).1 hb) hne
  | some best =>
    refine ⟨best, rfl, getBestOrder_mem type l best hb, ?_⟩
    intro o ho
    rcases hside with rfl | rfl
    · simpa using getBestOrder_buy_max type l best hall hb o ho
    · have hne : ¬ ('S' = 'B') := by decide
      simpa [hne] using getBestOrder_sell_min type l best hall hb o ho

/-- Worked instance: three buy orders at prices 80, 95, 95. -/
theorem getBestOrder_extreme_witness :
    ('B' = 'B' ∨ 'B' = 'S') ∧
    (∀ o ∈ ([⟨1, 'B', 0, 5, 80⟩, ⟨2, 'B', 0, 5, 95⟩, ⟨3, 'B', 0, 5, 95⟩] : OrderList),
      o.type = 'B') ∧
    ((getBestOrder 'B' [⟨1, 'B', 0, 5, 80⟩, ⟨2, 'B', 0, 5, 95⟩, ⟨3, 'B', 0, 5, 95⟩] = none ↔
        ([⟨1, 'B', 0, 5, 80⟩, ⟨2, 'B', 0, 5, 95⟩, ⟨3, 'B', 0, 5, 95⟩] : OrderList) = []) ∧
     (([⟨1, 'B', 0, 5, 80⟩, ⟨2, 'B', 0, 5, 95⟩, ⟨3, 'B', 0, 5, 95⟩] : OrderList) ≠ [] →
        ∃ best, getBestOrder 'B' [⟨1, 'B', 0, 5, 80⟩, ⟨2, 'B', 0, 5, 95⟩, ⟨3, 'B', 0, 5, 95⟩]
            = some best ∧
          best ∈ ([⟨1, 'B', 0, 5, 80⟩, ⟨2, 'B', 0, 5, 95⟩, ⟨3, 'B', 0, 5, 95⟩] : OrderList) ∧
          ∀ o ∈ ([⟨1, 'B', 0, 5, 80⟩, ⟨2, 'B', 0, 5, 95⟩, ⟨3, 'B', 0, 5, 95⟩] : OrderList),
            if 'B' = 'B' then o.price ≤ best.price else best.price ≤ o.price)) :=
  ⟨by decide, by decide,
    getBestOrder_extreme 'B' 'B' [⟨1, 'B', 0, 5, 80⟩, ⟨2, 'B', 0, 5, 95⟩, ⟨3, 'B', 0, 5, 95⟩]
      (by decide) (by decide)⟩

/-! ## The matching loop -/

theorem matchStep_of_best (t : Int) (b : Book) (buy sell : Order)
    (hb : getBestOrder 'B' b.buy = some buy) (hs : getBestOrder 'S' b.sell = some sell)
    (hp : sell.price ≤ buy.price) :
    matchStep t b = some (⟨t, min buy.quantity sell.quantity, buy.price⟩,
      ⟨if wrapInt (buy.quantity - min buy.quantity sell.quantity) = 0 then
          removeOrder buy.addr (subQuantity buy.addr (min buy.quantity sell.quantity) b.buy)
        else subQuantity buy.addr (min buy.quantity sell.quantity) b.buy,
       if wrapInt (sell.quantity - min buy.quantity sell.quantity) = 0 then
          removeOrder sell.addr (subQuantity sell.addr (min buy.quantity sell.quantity) b.sell)
        else subQuantity sell.addr (min buy.quantity sell.quantity) b.sell⟩) := by
  simp [matchStep, hb, hs, not_lt.2 hp]

theorem matchLoop_first (t : Int) (n : Nat) (b b1 : Book) (tr : Trade)
    (r : List Trade × Book) (hs : matchStep t b = some (tr, b1))
    (h : matchLoop t n b = some r) :
    ∃ ts, r.1 = tr :: ts ∧ matchLoop t (n - 1) b1 = some (ts, r.2) := by
  cases n with
  | zero => simp [matchLoop] at h
  | succ n =>
    simp only [matchLoop, hs] at h
    cases hr : matchLoop t n b1 with
    | none => simp [hr] at h
    | some r1 =>
      obtain ⟨ts, b2⟩ := r1
      simp only [hr, Option.some.injEq] at h
      subst h
      exact ⟨ts, rfl, by simpa using hr⟩

theorem matchLoop_no_cross (t : Int) (n : Nat) (b : Book) (r : List Trade × Book)
    (hB : ∀ o ∈ b.buy, o.type = 'B') (hS : ∀ o ∈ b.sell, o.type = 'S')
    (h : matchLoop t n b = some r) :
    r.2.buy = [] ∨ r.2.sell = [] ∨ ∀ x ∈ r.2.buy, ∀ y ∈ r.2.sell, x.price < y.price := by
  refine matchLoop_induction t
    (fun b => (∀ o ∈ b.buy, o.type = 'B') ∧ (∀ o ∈ b.sell, o.type = 'S'))
    (fun _ _ b2 => b2.buy = [] ∨ b2.sell = [] ∨ ∀ x ∈ b2.buy, ∀ y ∈ b2.sell, x.price < y.price)
    ?_ ?_ n b r ⟨hB, hS⟩ h
  · intro b hInv hstop
    rcases (matchStep_none t b).1 hstop with h1 | h1 | ⟨buy, sell, hb, hs, hlt⟩
    · exact Or.inl h1
    · exact Or.inr (Or.inl h1)
    · refine Or.inr (Or.inr ?_)
      intro x hx y hy
      have h1 := getBestOrder_buy_max 'B' b.buy buy hInv.1 hb x hx
      have h2 := getBestOrder_sell_min 'S' b.sell sell hInv.2 hs y hy
      omega
  · intro b tr b1 hInv hstep
    refine ⟨⟨?_, ?_⟩, fun _ _ hQ => hQ⟩
    · intro o1 ho1
      obtain ⟨o, ho, -, hty, -, -⟩ := matchStep_buy_mem t b tr b1 hstep o1 ho1
      rw [hty]; exact hInv.1 o ho
    · intro o1 ho1
      obtain ⟨o, ho, -, hty, -, -⟩ := matchStep_sell_mem t b tr b1 hstep o1 ho1
      rw [hty]; exact hInv.2 o ho

/-- C2: when the buy orders of an instrument all have type `'B'` and its sell orders all
have type `'S'`, `matchOrder` returns, and in the state it returns the buy list is empty,
or the sell list is empty, or every resting buy price is strictly less than every resting
sell price (the largest buy price is below the smallest sell price). -/
theorem matchOrder_no_cross (e : Engine) (i : Fin MAX_STOCKS)
    (hB : ∀ o ∈ e.buyOrder i, o.type = 'B') (hS : ∀ o ∈ e.sellOrder i, o.type = 'S') :
    ∃ trades e1, matchOrder ((i : Nat) : Int) e = some (trades, e1) ∧
      (e1.buyOrder i = [] ∨ e1.sellOrder i = [] ∨
        ∀ x ∈ e1.buyOrder i, ∀ y ∈ e1.sellOrder i, x.price < y.price) := by
  obtain ⟨trades, b, hr, -, hm⟩ := matchOrder_cast i e
  refine ⟨trades, _, hm, ?_⟩
  simpa using matchLoop_no_cross _ _ (e.book i) (trades, b) hB hS hr

/-- Worked instance: the sample state ends with no cross. -/
theorem matchOrder_no_cross_witness :
    (∀ o ∈ sampleEngine.buyOrder sampleSlot, o.type = 'B') ∧
    (∀ o ∈ sampleEngine.sellOrder sampleSlot, o.type = 'S') ∧
    ∃ trades e1,
      matchOrder ((sampleSlot : Nat) : Int) sampleEngine = some (trades, e1) ∧
      (e1.buyOrder sampleSlot = [] ∨ e1.sellOrder sampleSlot = [] ∨
        ∀ x ∈ e1.buyOrder sampleSlot, ∀ y ∈ e1.sellOrder sampleSlot, x.price < y.price) :=
  ⟨by decide, by decide,
    matchOrder_no_cross sampleEngine sampleSlot (by decide) (by decide)⟩

/-- C3: in a state of instrument `i` whose nodes have pairwise different addresses, where
`getBestOrder` selects the bid `b` and the ask `a` and `b.price ≥ a.price`, the first
trade logged by `matchOrder` has ticket `i`, quantity `min b.quantity a.quantity` and
price `b.price`.  The first pass of the loop stores `quantity - tradeQuantity` (as an
`int`) in `b` and in `a`, which is the exact difference whenever that difference is an
`int`; it unlinks `b` from the buy list exactly when the stored quantity of `b` is 0 and
`a` from the sell list exactly when the stored quantity of `a` is 0, and touches no other
node. -/
theorem matchOrder_first_trade (e : Engine) (i : Fin MAX_STOCKS) (b a : Order)
    (hdB : distinctAddr (e.buyOrder i)) (hdS : distinctAddr (e.sellOrder i))
    (hb : getBestOrder 'B' (e.buyOrder i) = some b)
    (ha : getBestOrder 'S' (e.sellOrder i) = some a)
    (hp : b.price ≥ a.price) :
    ∃ rest e1 book1 l1 l2 r1 r2 qb qa,
      matchOrder ((i : Nat) : Int) e =
        some (⟨((i : Nat) : Int), min b.quantity a.quantity, b.price⟩ :: rest, e1) ∧
      matchStep ((i : Nat) : Int) (e.book i) =
        some (⟨((i : Nat) : Int), min b.quantity a.quantity, b.price⟩, book1) ∧
      qb = wrapInt (b.quantity - min b.quantity a.quantity) ∧
      qa = wrapInt (a.quantity - min b.quantity a.quantity) ∧
      (isInt (b.quantity - min b.quantity a.quantity) →
        qb = b.quantity - min b.quantity a.quantity) ∧
      (isInt (a.quantity - min b.quantity a.quantity) →
        qa = a.quantity - min b.quantity a.quantity) ∧
      e.buyOrder i = l1 ++ b :: l2 ∧ e.sellOrder i = r1 ++ a :: r2 ∧
      book1.buy = (if qb = 0 then l1 ++ l2 else l1 ++ { b with quantity := qb } :: l2) ∧
      book1.sell = (if qa = 0 then r1 ++ r2 else r1 ++ { a with quantity := qa } :: r2) := by
  have hstep := matchStep_of_best ((i : Nat) : Int) (e.book i) b a hb ha hp
  obtain ⟨b0, a0, l1, l2, r1, r2, hb0, ha0, -, hl, hr, -, e1, e2⟩ :=
    matchStep_split _ _ _ _ hdB hdS hstep
  have eb : b0 = b := by
    have := hb0.symm.trans hb
    simpa using this
  have ea : a0 = a := by
    have := ha0.symm.trans ha
    simpa using this
  subst eb; subst ea
  obtain ⟨trades, bk, hloop, -, hm⟩ := matchOrder_cast i e
  obtain ⟨ts, hts, -⟩ := matchLoop_first _ _ _ _ _ _ hstep hloop
  simp only at hts
  subst hts
  exact ⟨ts, _, _, l1, l2, r1, r2, _, _, hm, hstep, rfl, rfl,
    fun h => wrapInt_of_isInt _ h, fun h => wrapInt_of_isInt _ h, hl, hr, e1, e2⟩

/-- Worked instance on the sample state: the bid 10 at 100 meets the ask 12 at 90. -/
theorem matchOrder_first_trade_witness :
    distinctAddr (sampleEngine.buyOrder sampleSlot) ∧
    distinctAddr (sampleEngine.sellOrder sampleSlot) ∧
    getBestOrder 'B' (sampleEngine.buyOrder sampleSlot) = some ⟨1, 'B', 7, 10, 100⟩ ∧
    getBestOrder 'S' (sampleEngine.sellOrder sampleSlot) = some ⟨2, 'S', 7, 12, 90⟩ ∧
    (100 : Int) ≥ 90 ∧
    ∃ rest e1 book1 l1 l2 r1 r2 qb qa,
      matchOrder ((sampleSlot : Nat) : Int) sampleEngine =
        some (⟨((sampleSlot : Nat) : Int), min 10 12, 100⟩ :: rest, e1) ∧
      matchStep ((sampleSlot : Nat) : Int) (sampleEngine.book sampleSlot) =
        some (⟨((sampleSlot : Nat) : Int), min 10 12, 100⟩, book1) ∧
      qb = wrapInt (10 - min 10 12) ∧
      qa = wrapInt (12 - min 10 12) ∧
      (isInt (10 - min 10 12) → qb = 10 - min 10 12) ∧
      (isInt (12 - min 10 12) → qa = 12 - min 10 12) ∧
      sampleEngine.buyOrder sampleSlot = l1 ++ ⟨1, 'B', 7, 10, 100⟩ :: l2 ∧
      sampleEngine.sellOrder sampleSlot = r1 ++ ⟨2, 'S', 7, 12, 90⟩ :: r2 ∧
      book1.buy = (if qb = 0 then l1 ++ l2 else l1 ++ ⟨1, 'B', 7, qb, 100⟩ :: l2) ∧
      book1.sell = (if qa = 0 then r1 ++ r2 else r1 ++ ⟨2, 'S', 7, qa, 90⟩ :: r2) :=
  ⟨by decide, by decide, by decide, by decide, by decide,
    matchOrder_first_trade sampleEngine sampleSlot ⟨1, 'B', 7, 10, 100⟩ ⟨2, 'S', 7, 12, 90⟩
      (by decide) (by decide) (by decide) (by decide) (by decide)⟩

/-! ## Quantities -/

theorem totalQuantity_split (l1 l2 : OrderList) (x : Order) :
    totalQuantity (l1 ++ x :: l2) = totalQuantity l1 + x.quantity + totalQuantity l2 := by
  simp [totalQuantity, List.sum_append, List.sum_cons, add_assoc]

theorem totalQuantity_append (l1 l2 : OrderList) :
    totalQuantity (l1 ++ l2) = totalQuantity l1 + totalQuantity l2 := by
  simp [totalQuantity, List.sum_append]

/-- Effect of a fill of `m` on the side that holds the filled node `x`. -/
theorem fill_side (l1 l2 : OrderList) (x : Order) (m : Int)
    (hl : liveQuantities (l1 ++ x :: l2)) (hm0 : 0 < m) (hm : m ≤ x.quantity) :
    totalQuantity (if wrapInt (x.quantity - m) = 0 then l1 ++ l2
        else l1 ++ { x with quantity := wrapInt (x.quantity - m) } :: l2) =
      totalQuantity (l1 ++ x :: l2) - m ∧
    liveQuantities (if wrapInt (x.quantity - m) = 0 then l1 ++ l2
        else l1 ++ { x with quantity := wrapInt (x.quantity - m) } :: l2) := by
  have hx := hl x (by simp)
  have hI : isInt (x.quantity - m) := by
    unfold isInt INT_MIN
    unfold INT_MAX at hx ⊢
    omega
  rw [wrapInt_of_isInt _ hI]
  have h1 : liveQuantities l1 := fun o ho => hl o (by simp [ho])
  have h2 : liveQuantities l2 := fun o ho => hl o (by simp [ho])
  split
  · rename_i h0
    refine ⟨?_, ?_⟩
    · rw [totalQuantity_split, totalQuantity_append]; omega
    · intro o ho
      rcases List.mem_append.1 ho with h | h
      · exact h1 o h
      · exact h2 o h
  · rename_i h0
    refine ⟨?_, ?_⟩
    · rw [totalQuantity_split, totalQuantity_split]; simp only; omega
    · intro o ho
      rcases List.mem_append.1 ho with h | h
      · exact h1 o h
      · rcases List.mem_cons.1 h with rfl | h
        · simp only
          unfold INT_MAX at hx ⊢
          omega
        · exact h2 o h

/-- A pass on a state of live orders with pairwise different addresses trades a positive
quantity, takes exactly that quantity off each side, and leaves a state of the same kind. -/
theorem matchStep_live (t : Int) (b : Book) (tr : Trade) (b1 : Book)
    (hdB : distinctAddr b.buy) (hdS : distinctAddr b.sell)
    (hlB : liveQuantities b.buy) (hlS : liveQuantities b.sell)
    (h : matchStep t b = some (tr, b1)) :
    0 < tr.quantity ∧
    totalQuantity b1.buy = totalQuantity b.buy - tr.quantity ∧
    totalQuantity b1.sell = totalQuantity b.sell - tr.quantity ∧
    liveQuantities b1.buy ∧ liveQuantities b1.sell ∧
    distinctAddr b1.buy ∧ distinctAddr b1.sell := by
  obtain ⟨hd1, hd2⟩ := matchStep_distinct t b tr b1 hdB hdS h
  obtain ⟨buy, sell, l1, l2, r1, r2, -, -, -, hl, hr, htr, e1, e2⟩ :=
    matchStep_split t b tr b1 hdB hdS h
  rw [hl] at hlB
  rw [hr] at hlS
  have hbq := hlB buy (by simp)
  have hsq := hlS sell (by simp)
  have hm0 : 0 < min buy.quantity sell.quantity := lt_min hbq.1 hsq.1
  obtain ⟨t1, v1⟩ := fill_side l1 l2 buy _ hlB hm0 (min_le_left _ _)
  obtain ⟨t2, v2⟩ := fill_side r1 r2 sell _ hlS hm0 (min_le_right _ _)
  refine ⟨by rw [htr]; exact hm0, ?_, ?_, ?_, ?_, hd1, hd2⟩
  · rw [htr, e1, hl]; exact t1
  · rw [htr, e2, hr]; exact t2
  · rw [e1]; exact v1
  · rw [e2]; exact v2

/-- The state of live orders with pairwise different addresses is kept by the whole loop,
each side loses exactly the traded quantity, and every trade is positive. -/
theorem matchLoop_live (t : Int) (n : Nat) (b : Book) (r : List Trade × Book)
    (hdB : distinctAddr b.buy) (hdS : distinctAddr b.sell)
    (hlB : liveQuantities b.buy) (hlS : liveQuantities b.sell)
    (h : matchLoop t n b = some r) :
    totalQuantity r.2.buy = totalQuantity b.buy - tradedQuantity r.1 ∧
    totalQuantity r.2.sell = totalQuantity b.sell - tradedQuantity r.1 ∧
    liveQuantities r.2.buy ∧ liveQuantities r.2.sell ∧ ∀ tr ∈ r.1, 0 < tr.quantity := by
  refine matchLoop_induction t
    (fun b => distinctAddr b.buy ∧ distinctAddr b.sell ∧
      liveQuantities b.buy ∧ liveQuantities b.sell)
    (fun b ts b2 =>
      totalQuantity b2.buy = totalQuantity b.buy - tradedQuantity ts ∧
      totalQuantity b2.sell = totalQuantity b.sell - tradedQuantity ts ∧
      liveQuantities b2.buy ∧ liveQuantities b2.sell ∧ ∀ tr ∈ ts, 0 < tr.quantity)
    ?_ ?_ n b r ⟨hdB, hdS, hlB, hlS⟩ h
  · intro b hInv _
    exact ⟨by simp [tradedQuantity], by simp [tradedQuantity], hInv.2.2.1, hInv.2.2.2, by simp⟩
  · intro b tr b1 hInv hstep
    obtain ⟨h0, t1, t2, v1, v2, d1, d2⟩ :=
      matchStep_live t b tr b1 hInv.1 hInv.2.1 hInv.2.2.1 hInv.2.2.2 hstep
    refine ⟨⟨d1, d2, v1, v2⟩, ?_⟩
    intro ts b2 hQ
    obtain ⟨q1, q2, q3, q4, q5⟩ := hQ
    refine ⟨?_, ?_, q3, q4, ?_⟩
    · rw [q1, t1]; simp only [tradedQuantity, List.map_cons, List.sum_cons]; omega
    · rw [q2, t2]; simp only [tradedQuantity, List.map_cons, List.sum_cons]; omega
    · intro x hx
      rcases List.mem_cons.1 hx with rfl | hx
      · exact h0
      · exact q5 x hx

/-- C4: conservation.  On an instrument whose resting orders have pairwise different
addresses and positive `int` quantities, `matchOrder` returns, and in the state it returns
the quantity resting on the buy side is the quantity resting there before the call minus
the sum of the quantities of the trades of the call; the same holds for the sell side, so
both sides lost the same total quantity. -/
theorem matchOrder_conservation (e : Engine) (i : Fin MAX_STOCKS)
    (hdB : distinctAddr (e.buyOrder i)) (hdS : distinctAddr (e.sellOrder i))
    (hlB : liveQuantities (e.buyOrder i)) (hlS : liveQuantities (e.sellOrder i)) :
    ∃ trades e1, matchOrder ((i : Nat) : Int) e = some (trades, e1) ∧
      totalQuantity (e1.buyOrder i) = totalQuantity (e.buyOrder i) - tradedQuantity trades ∧
      totalQuantity (e1.sellOrder i) = totalQuantity (e.sellOrder i) - tradedQuantity trades ∧
      totalQuantity (e.buyOrder i) - totalQuantity (e1.buyOrder i) =
        totalQuantity (e.sellOrder i) - totalQuantity (e1.sellOrder i) := by
  obtain ⟨trades, b, hr, -, hm⟩ := matchOrder_cast i e
  obtain ⟨q1, q2, -, -, -⟩ := matchLoop_live _ _ (e.book i) (trades, b) hdB hdS hlB hlS hr
  simp only [Engine.book] at q1 q2
  refine ⟨trades, _, hm, ?_, ?_, ?_⟩
  · simpa using q1
  · simpa using q2
  · simp only [Function.update_same]; omega

/-- Worked instance: conservation on the sample state. -/
theorem matchOrder_conservation_witness :
    distinctAddr (sampleEngine.buyOrder sampleSlot) ∧
    distinctAddr (sampleEngine.sellOrder sampleSlot) ∧
    liveQuantities (sampleEngine.buyOrder sampleSlot) ∧
    liveQuantities (sampleEngine.sellOrder sampleSlot) ∧
    ∃ trades e1,
      matchOrder ((sampleSlot : Nat) : Int) sampleEngine = some (trades, e1) ∧
      totalQuantity (e1.buyOrder sampleSlot) =
        totalQuantity (sampleEngine.buyOrder sampleSlot) - tradedQuantity trades ∧
      totalQuantity (e1.sellOrder sampleSlot) =
        totalQuantity (sampleEngine.sellOrder sampleSlot) - tradedQuantity trades ∧
      totalQuantity (sampleEngine.buyOrder sampleSlot) - totalQuantity (e1.buyOrder sampleSlot) =
        totalQuantity (sampleEngine.sellOrder sampleSlot) -
          totalQuantity (e1.sellOrder sampleSlot) :=
  ⟨by decide, by decide, by decide, by decide,
    matchOrder_conservation sampleEngine sampleSlot
      (by decide) (by decide) (by decide) (by decide)⟩

/-- C5: positive-quantity invariant.  On an instrument whose resting orders have pairwise
different addresses and positive `int` quantities, every pass of the loop that trades
leaves only orders of positive quantity on both sides (an order brought to 0 is unlinked
in that pass) and trades a positive quantity; hence `matchOrder` returns a state in which
every order resting on the instrument has positive quantity, and every trade it logged has
positive quantity. -/
theorem matchOrder_positive (e : Engine) (i : Fin MAX_STOCKS)
    (hdB : distinctAddr (e.buyOrder i)) (hdS : distinctAddr (e.sellOrder i))
    (hlB : liveQuantities (e.buyOrder i)) (hlS : liveQuantities (e.sellOrder i)) :
    (∀ tr b1, matchStep ((i : Nat) : Int) (e.book i) = some (tr, b1) →
      0 < tr.quantity ∧ (∀ o ∈ b1.buy, 0 < o.quantity) ∧ (∀ o ∈ b1.sell, 0 < o.quantity) ∧
      distinctAddr b1.buy ∧ distinctAddr b1.sell ∧
      liveQuantities b1.buy ∧ liveQuantities b1.sell) ∧
    ∃ trades e1, matchOrder ((i : Nat) : Int) e = some (trades, e1) ∧
      (∀ o ∈ e1.buyOrder i, 0 < o.quantity) ∧ (∀ o ∈ e1.sellOrder i, 0 < o.quantity) ∧
      (∀ tr ∈ trades, 0 < tr.quantity) := by
  constructor
  · intro tr b1 hstep
    obtain ⟨h0, -, -, v1, v2, d1, d2⟩ :=
      matchStep_live _ (e.book i) tr b1 hdB hdS hlB hlS hstep
    exact ⟨h0, fun o ho => (v1 o ho).1, fun o ho => (v2 o ho).1, d1, d2, v1, v2⟩
  · obtain ⟨trades, b, hr, -, hm⟩ := matchOrder_cast i e
    obtain ⟨-, -, v1, v2, hpos⟩ := matchLoop_live _ _ (e.book i) (trades, b) hdB hdS hlB hlS hr
    refine ⟨trades, _, hm, ?_, ?_, hpos⟩
    · intro o ho
      have ho1 : o ∈ b.buy := by simpa using ho
      exact (v1 o ho1).1
    · intro o ho
      have ho1 : o ∈ b.sell := by simpa using ho
      exact (v2 o ho1).1

/-- Worked instance: the sample state keeps positive quantities. -/
theorem matchOrder_positive_witness :
    distinctAddr (sampleEngine.buyOrder sampleSlot) ∧
    distinctAddr (sampleEngine.sellOrder sampleSlot) ∧
    liveQuantities (sampleEngine.buyOrder sampleSlot) ∧
    liveQuantities (sampleEngine.sellOrder sampleSlot) ∧
    ∃ trades e1,
      matchOrder ((sampleSlot : Nat) : Int) sampleEngine = some (trades, e1) ∧
      (∀ o ∈ e1.buyOrder sampleSlot, 0 < o.quantity) ∧
      (∀ o ∈ e1.sellOrder sampleSlot, 0 < o.quantity) ∧
      (∀ tr ∈ trades, 0 < tr.quantity) :=
  ⟨by decide, by decide, by decide, by decide,
    (matchOrder_positive sampleEngine sampleSlot
      (by decide) (by decide) (by decide) (by decide)).2⟩

/-! ## Termination -/

/-- C6: `matchOrder` terminates.  Every pass of the loop that executes a trade lengthens
neither list and unlinks a node from the buy list or from the sell list; so on every book
the loop reaches its `break` within one pass more than the number of resting orders, the
result does not depend on how many further passes are allowed, and the number of trades is
at most the number of orders resting on the two sides at the start.  In particular
`matchOrder` returns for every state and every instrument, with at most that many
trades. -/
theorem matchOrder_terminates :
    (∀ (t : Int) (b : Book) (tr : Trade) (b1 : Book), matchStep t b = some (tr, b1) →
      b1.buy.length ≤ b.buy.length ∧ b1.sell.length ≤ b.sell.length ∧
      (b1.buy.length + 1 = b.buy.length ∨ b1.sell.length + 1 = b.sell.length)) ∧
    (∀ (t : Int) (b : Book), ∃ r, matchLoop t (b.size + 1) b = some r ∧
      r.1.length ≤ b.buy.length + b.sell.length ∧
      ∀ n r1, matchLoop t n b = some r1 → r1 = r) ∧
    (∀ (e : Engine) (i : Fin MAX_STOCKS), ∃ trades e1,
      matchOrder ((i : Nat) : Int) e = some (trades, e1) ∧
      trades.length ≤ (e.buyOrder i).length + (e.sellOrder i).length) := by
  refine ⟨matchStep_lengths, ?_, ?_⟩
  · intro t b
    obtain ⟨r, hr, hlen⟩ := matchLoop_total t (b.size + 1) b (Nat.lt_succ_self _)
    refine ⟨r, hr, ?_, ?_⟩
    · unfold Book.size at hlen; omega
    · intro n r1 h1
      exact matchLoop_unique t n _ b r1 r h1 hr
  · intro e i
    obtain ⟨trades, b, -, hlen, hm⟩ := matchOrder_cast i e
    refine ⟨trades, _, hm, ?_⟩
    simp only [Book.size, Engine.book] at hlen
    omega

/-! ## Removal and insertion -/

/-- C7: on a list whose nodes have pairwise different addresses, `removeOrder` called
with the address of a node `x` of the list unlinks exactly `x`: the nodes before and
after `x` stay, unchanged and in their order, the length drops by one and `x` is no longer
in the list; called with an address that no node of the list has, it leaves the list as it
is.  In both cases the result is the list of the nodes whose address differs from the
argument. -/
theorem removeOrder_exact (a : Nat) (l : OrderList) (hd : distinctAddr l) :
    (∀ x ∈ l, x.addr = a → ∃ l1 l2, l = l1 ++ x :: l2 ∧ removeOrder a l = l1 ++ l2 ∧
      (removeOrder a l).length + 1 = l.length ∧ x ∉ removeOrder a l) ∧
    ((∀ x ∈ l, x.addr ≠ a) → removeOrder a l = l) ∧
    removeOrder a l = l.filter (fun o => decide (o.addr ≠ a)) := by
  have key : ∀ x ∈ l, x.addr = a → ∃ l1 l2, l = l1 ++ x :: l2 ∧ removeOrder a l = l1 ++ l2 ∧
      (∀ o ∈ l1, o.addr ≠ a) ∧ (∀ o ∈ l2, o.addr ≠ a) := by
    intro x hx hxa
    obtain ⟨l1, l2, hl, h1, h2⟩ := split_of_mem l x hd hx
    rw [hxa] at h1 h2
    exact ⟨l1, l2, hl, by rw [hl]; exact removeOrder_split a l1 l2 x h1 hxa, h1, h2⟩
  have fil : ∀ l0 : OrderList, (∀ o ∈ l0, o.addr ≠ a) →
      l0.filter (fun o => decide (o.addr ≠ a)) = l0 := by
    intro l0 h0
    apply List.filter_eq_self.2
    intro o ho
    simpa using h0 o ho
  refine ⟨?_, removeOrder_absent a l, ?_⟩
  · intro x hx hxa
    obtain ⟨l1, l2, hl, hr, h1, h2⟩ := key x hx hxa
    refine ⟨l1, l2, hl, hr, ?_, ?_⟩
    · rw [hr, hl]; simp; omega
    · rw [hr]
      intro hmem
      rcases List.mem_append.1 hmem with h | h
      · exact h1 x h hxa
      · exact h2 x h hxa
  · by_cases hex : ∃ x ∈ l, x.addr = a
    · obtain ⟨x, hx, hxa⟩ := hex
      obtain ⟨l1, l2, hl, hr, h1, h2⟩ := key x hx hxa
      rw [hr, hl, List.filter_append, List.filter_cons, fil l1 h1, fil l2 h2]
      simp [hxa]
    · have habs : ∀ x ∈ l, x.addr ≠ a := fun x hx hxa => hex ⟨x, hx, hxa⟩
      rw [removeOrder_absent a l habs, fil l habs]

/-- Worked instance: unlinking the middle one of three nodes. -/
theorem removeOrder_exact_witness :
    distinctAddr [⟨1, 'B', 0, 5, 80⟩, ⟨2, 'B', 0, 5, 95⟩, ⟨3, 'B', 0, 5, 95⟩] ∧
    removeOrder 2 [⟨1, 'B', 0, 5, 80⟩, ⟨2, 'B', 0, 5, 95⟩, ⟨3, 'B', 0, 5, 95⟩] =
      List.filter (fun o => decide (o.addr ≠ 2))
        [⟨1, 'B', 0, 5, 80⟩, ⟨2, 'B', 0, 5, 95⟩, ⟨3, 'B', 0, 5, 95⟩] :=
  ⟨by decide,
    (removeOrder_exact 2 [⟨1, 'B', 0, 5, 80⟩, ⟨2, 'B', 0, 5, 95⟩, ⟨3, 'B', 0, 5, 95⟩]
      (by decide)).2.2⟩

theorem slot_of_range (ticket : Int) (h0 : 0 ≤ ticket) (h1 : ticket < 1024) :
    ∃ i : Fin MAX_STOCKS, ((i : Nat) : Int) = ticket ∧ slot ticket = some i := by
  have hlt : ticket.toNat < MAX_STOCKS := by
    unfold MAX_STOCKS; omega
  refine ⟨⟨ticket.toNat, hlt⟩, by simp only; omega, ?_⟩
  have h : 0 ≤ ticket ∧ ticket < (MAX_STOCKS : Int) := by
    unfold MAX_STOCKS; constructor <;> omega
  unfold slot
  rw [dif_pos h]

/-- C8: for `type` in {`'B'`, `'S'`} and `0 ≤ ticket < 1024`, `addOrder` returns a state in
which the new order, with exactly the four fields given, is the head of the buy list of
`ticket` when `type` is `'B'` and of the sell list of `ticket` when `type` is `'S'`,
followed by the orders that list held before, in their order; the other list of the
instrument and both lists of every other instrument are as before. -/
theorem addOrder_frame (e : Engine) (addr : Nat) (type : Char) (ticket quantity price : Int)
    (hty : type = 'B' ∨ type = 'S') (h0 : 0 ≤ ticket) (h1 : ticket < 1024) :
    ∃ (i : Fin MAX_STOCKS) (e1 : Engine), ((i : Nat) : Int) = ticket ∧
      addOrder addr type ticket quantity price e = some e1 ∧
      (type = 'B' → e1.buyOrder i = ⟨addr, type, ticket, quantity, price⟩ :: e.buyOrder i ∧
        e1.sellOrder i = e.sellOrder i) ∧
      (type = 'S' → e1.sellOrder i = ⟨addr, type, ticket, quantity, price⟩ :: e.sellOrder i ∧
        e1.buyOrder i = e.buyOrder i) ∧
      (∀ o, (o ∈ e1.buyOrder i ∨ o ∈ e1.sellOrder i) →
        o = ⟨addr, type, ticket, quantity, price⟩ ∨ o ∈ e.buyOrder i ∨ o ∈ e.sellOrder i) ∧
      (e1.buyOrder i).length + (e1.sellOrder i).length =
        (e.buyOrder i).length + (e.sellOrder i).length + 1 ∧
      ∀ j, j ≠ i → e1.buyOrder j = e.buyOrder j ∧ e1.sellOrder j = e.sellOrder j := by
  obtain ⟨i, hi, hslot⟩ := slot_of_range ticket h0 h1
  have hSB : ¬ ('S' = 'B') := by decide
  rcases hty with rfl | rfl
  · refine ⟨i, ⟨e.sellOrder, Function.update e.buyOrder i
        (OrderList.addOrder ⟨addr, 'B', ticket, quantity, price⟩ (e.buyOrder i))⟩, hi,
      by simp [addOrder, hslot], ?_, ?_, ?_, ?_, ?_⟩
    · intro _; simp [OrderList.addOrder]
    · intro h; exact absurd h.symm hSB
    · intro o ho
      simp only [Function.update_same, OrderList.addOrder, List.mem_cons] at ho
      tauto
    · simp [OrderList.addOrder]; omega
    · intro j hj; simp [Function.update_noteq hj]
  · refine ⟨i, ⟨Function.update e.sellOrder i
        (OrderList.addOrder ⟨addr, 'S', ticket, quantity, price⟩ (e.sellOrder i)), e.buyOrder⟩, hi,
      by simp [addOrder, hslot, hSB], ?_, ?_, ?_, ?_, ?_⟩
    · intro h; exact absurd h hSB
    · intro _; simp [OrderList.addOrder]
    · intro o ho
      simp only [Function.update_same, OrderList.addOrder, List.mem_cons] at ho
      tauto
    · simp [OrderList.addOrder]; omega
    · intro j hj; simp [Function.update_noteq hj]

/-- Worked instance: a buy order of 3 at 120 for instrument 7 added to the sample state. -/
theorem addOrder_frame_witness :
    ('B' = 'B' ∨ 'B' = 'S') ∧ (0 : Int) ≤ 7 ∧ (7 : Int) < 1024 ∧
    ∃ (i : Fin MAX_STOCKS) (e1 : Engine), ((i : Nat) : Int) = 7 ∧
      addOrder 5 'B' 7 3 120 sampleEngine = some e1 ∧
      ('B' = 'B' → e1.buyOrder i = ⟨5, 'B', 7, 3, 120⟩ :: sampleEngine.buyOrder i ∧
        e1.sellOrder i = sampleEngine.sellOrder i) ∧
      ('B' = 'S' → e1.sellOrder i = ⟨5, 'B', 7, 3, 120⟩ :: sampleEngine.sellOrder i ∧
        e1.buyOrder i = sampleEngine.buyOrder i) ∧
      (∀ o, (o ∈ e1.buyOrder i ∨ o ∈ e1.sellOrder i) →
        o = ⟨5, 'B', 7, 3, 120⟩ ∨ o ∈ sampleEngine.buyOrder i ∨ o ∈ sampleEngine.sellOrder i) ∧
      (e1.buyOrder i).length + (e1.sellOrder i).length =
        (sampleEngine.buyOrder i).length + (sampleEngine.sellOrder i).length + 1 ∧
      ∀ j, j ≠ i → e1.buyOrder j = sampleEngine.buyOrder j ∧
        e1.sellOrder j = sampleEngine.sellOrder j :=
  ⟨by decide, by decide, by decide,
    addOrder_frame sampleEngine 5 'B' 7 3 120 (by decide) (by decide) (by decide)⟩

/-! ## Worked scenarios -/

/-- C9: no-cross preservation.  When the buy list or the sell list of the instrument is
empty, or the price of the selected best bid is strictly less than the price of the
selected best ask, `matchOrder` logs no trade and returns the state it was called on:
both lists are unchanged, every order with its original quantity. -/
theorem matchOrder_preserves_uncrossed (e : Engine) (i : Fin MAX_STOCKS)
    (h : e.buyOrder i = [] ∨ e.sellOrder i = [] ∨
      ∃ b a, getBestOrder 'B' (e.buyOrder i) = some b ∧
        getBestOrder 'S' (e.sellOrder i) = some a ∧ b.price < a.price) :
    matchOrder ((i : Nat) : Int) e = some ([], e) := by
  have hstop : matchStep ((i : Nat) : Int) (e.book i) = none :=
    (matchStep_none _ _).2 h
  have hloop : matchLoop ((i : Nat) : Int) ((e.book i).size + 1) (e.book i) =
      some ([], e.book i) := by
    simp [matchLoop, hstop]
  obtain ⟨trades, b, hr, -, hm⟩ := matchOrder_cast i e
  rw [hloop] at hr
  simp only [Option.some.injEq, Prod.mk.injEq] at hr
  obtain ⟨rfl, rfl⟩ := hr
  rw [hm]
  simp only [Engine.book, Function.update_eq_self]

/-- Worked instance: a buy of 5 at 50 and a sell of 5 at 60. -/
theorem matchOrder_preserves_uncrossed_witness :
    getBestOrder 'B' ((Engine.single sampleSlot
        [⟨1, 'B', 7, 5, 50⟩] [⟨2, 'S', 7, 5, 60⟩]).buyOrder sampleSlot) =
      some ⟨1, 'B', 7, 5, 50⟩ ∧
    getBestOrder 'S' ((Engine.single sampleSlot
        [⟨1, 'B', 7, 5, 50⟩] [⟨2, 'S', 7, 5, 60⟩]).sellOrder sampleSlot) =
      some ⟨2, 'S', 7, 5, 60⟩ ∧
    (50 : Int) < 60 ∧
    matchOrder ((sampleSlot : Nat) : Int)
        (Engine.single sampleSlot [⟨1, 'B', 7, 5, 50⟩] [⟨2, 'S', 7, 5, 60⟩]) =
      some ([], Engine.single sampleSlot [⟨1, 'B', 7, 5, 50⟩] [⟨2, 'S', 7, 5, 60⟩]) :=
  ⟨by decide, by decide, by decide,
    matchOrder_preserves_uncrossed
      (Engine.single sampleSlot [⟨1, 'B', 7, 5, 50⟩] [⟨2, 'S', 7, 5, 60⟩]) sampleSlot
      (Or.inr (Or.inr ⟨⟨1, 'B', 7, 5, 50⟩, ⟨2, 'S', 7, 5, 60⟩,
        by decide, by decide, by decide⟩))⟩

/-- C10: full cross.  When the buy list of the instrument holds exactly one order, of
quantity `q` and price `pb`, the sell list exactly one order, of the same quantity `q` and
price `ps`, and `pb ≥ ps`, `matchOrder` logs exactly one trade, of quantity `q` at price
`pb`, and returns a state in which both lists of the instrument are empty and every other
instrument is as before.  (`q > 0` is not needed.) -/
theorem matchOrder_full_cross (e : Engine) (i : Fin MAX_STOCKS) (ab aa : Nat) (tb ta : Char)
    (kb ka q pb ps : Int)
    (hB : e.buyOrder i = [⟨ab, tb, kb, q, pb⟩]) (hS : e.sellOrder i = [⟨aa, ta, ka, q, ps⟩])
    (hp : pb ≥ ps) :
    ∃ e1, matchOrder ((i : Nat) : Int) e = some ([⟨((i : Nat) : Int), q, pb⟩], e1) ∧
      e1.buyOrder i = [] ∧ e1.sellOrder i = [] ∧
      ∀ j, j ≠ i → e1.buyOrder j = e.buyOrder j ∧ e1.sellOrder j = e.sellOrder j := by
  have hloop : matchLoop ((i : Nat) : Int) ((e.book i).size + 1) (e.book i) =
      some ([⟨((i : Nat) : Int), q, pb⟩], ⟨[], []⟩) := by
    simp [Engine.book, Book.size, hB, hS, matchLoop, matchStep, getBestOrder, scan,
      not_lt.2 hp, wrapInt_zero, subQuantity, removeOrder]
  obtain ⟨trades, b, hr, -, hm⟩ := matchOrder_cast i e
  rw [hloop] at hr
  simp only [Option.some.injEq, Prod.mk.injEq] at hr
  obtain ⟨rfl, rfl⟩ := hr
  refine ⟨_, hm, ?_, ?_, ?_⟩
  · simp
  · simp
  · intro j hj; simp [Function.update_noteq hj]

/-- Worked instance: a buy of 10 at 100 and a sell of 10 at 90. -/
theorem matchOrder_full_cross_witness :
    (Engine.single sampleSlot [⟨1, 'B', 7, 10, 100⟩] [⟨2, 'S', 7, 10, 90⟩]).buyOrder sampleSlot =
      [⟨1, 'B', 7, 10, 100⟩] ∧
    (Engine.single sampleSlot [⟨1, 'B', 7, 10, 100⟩] [⟨2, 'S', 7, 10, 90⟩]).sellOrder sampleSlot =
      [⟨2, 'S', 7, 10, 90⟩] ∧
    (100 : Int) ≥ 90 ∧
    ∃ e1, matchOrder ((sampleSlot : Nat) : Int)
        (Engine.single sampleSlot [⟨1, 'B', 7, 10, 100⟩] [⟨2, 'S', 7, 10, 90⟩]) =
        some ([⟨((sampleSlot : Nat) : Int), 10, 100⟩], e1) ∧
      e1.buyOrder sampleSlot = [] ∧ e1.sellOrder sampleSlot = [] ∧
      ∀ j, j ≠ sampleSlot →
        e1.buyOrder j = (Engine.single sampleSlot
          [⟨1, 'B', 7, 10, 100⟩] [⟨2, 'S', 7, 10, 90⟩]).buyOrder j ∧
        e1.sellOrder j = (Engine.single sampleSlot
          [⟨1, 'B', 7, 10, 100⟩] [⟨2, 'S', 7, 10, 90⟩]).sellOrder j :=
  ⟨by decide, by decide, by decide,
    matchOrder_full_cross
      (Engine.single sampleSlot [⟨1, 'B', 7, 10, 100⟩] [⟨2, 'S', 7, 10, 90⟩]) sampleSlot
      1 2 'B' 'S' 7 7 10 100 90 (by decide) (by decide) (by decide)⟩

theorem matchOrder_of_stop (e : Engine) (i : Fin MAX_STOCKS)
    (hstop : matchStep ((i : Nat) : Int) (e.book i) = none) :
    matchOrder ((i : Nat) : Int) e = some ([], e) := by
  have hloop : matchLoop ((i : Nat) : Int) ((e.book i).size + 1) (e.book i) =
      some ([], e.book i) := by
    simp [matchLoop, hstop]
  obtain ⟨trades, b, hr, -, hm⟩ := matchOrder_cast i e
  rw [hloop] at hr
  simp only [Option.some.injEq, Prod.mk.injEq] at hr
  obtain ⟨rfl, rfl⟩ := hr
  rw [hm]
  simp only [Engine.book, Function.update_eq_self]

theorem matchLoop_final_stop (t : Int) (n : Nat) (b : Book) (r : List Trade × Book)
    (h : matchLoop t n b = some r) : matchStep t r.2 = none :=
  matchLoop_induction t (fun _ => True) (fun _ _ b2 => matchStep t b2 = none)
    (fun _ _ hstop => hstop) (fun _ _ _ _ _ => ⟨trivial, fun _ _ hQ => hQ⟩) n b r trivial h

/-- C11: partial fill.  When the buy list of the instrument holds exactly one order, of
quantity `qb` and price `pb`, the sell list exactly one order, of quantity `qs` and price
`ps`, with `qb > qs > 0` (`qb` an `int`) and `pb ≥ ps`, `matchOrder` logs exactly one
trade, of quantity `qs` at price `pb`, and returns a state in which the sell list of the
instrument is empty, its buy list holds exactly the buy order with quantity `qb - qs` and
its other fields as before, and every other instrument is as before. -/
theorem matchOrder_partial_fill (e : Engine) (i : Fin MAX_STOCKS) (ab aa : Nat)
    (tb ta : Char) (kb ka qb qs pb ps : Int)
    (hB : e.buyOrder i = [⟨ab, tb, kb, qb, pb⟩]) (hS : e.sellOrder i = [⟨aa, ta, ka, qs, ps⟩])
    (hq : qb > qs) (hs : qs > 0) (hmax : qb ≤ INT_MAX) (hp : pb ≥ ps) :
    ∃ e1, matchOrder ((i : Nat) : Int) e = some ([⟨((i : Nat) : Int), qs, pb⟩], e1) ∧
      e1.sellOrder i = [] ∧ e1.buyOrder i = [⟨ab, tb, kb, qb - qs, pb⟩] ∧
      ∀ j, j ≠ i → e1.buyOrder j = e.buyOrder j ∧ e1.sellOrder j = e.sellOrder j := by
  have hI : isInt (qb - qs) := by
    unfold isInt INT_MIN
    unfold INT_MAX at hmax ⊢
    omega
  have hw : wrapInt (qb - qs) = qb - qs := wrapInt_of_isInt _ hI
  have hne : qb - qs ≠ 0 := by omega
  have hmin : min qb qs = qs := min_eq_right (le_of_lt hq)
  have hloop : matchLoop ((i : Nat) : Int) ((e.book i).size + 1) (e.book i) =
      some ([⟨((i : Nat) : Int), qs, pb⟩], ⟨[⟨ab, tb, kb, qb - qs, pb⟩], []⟩) := by
    simp [Engine.book, Book.size, hB, hS, matchLoop, matchStep, getBestOrder, scan,
      not_lt.2 hp, wrapInt_zero, subQuantity, removeOrder, hmin, hw, hne]
  obtain ⟨trades, b, hr, -, hm⟩ := matchOrder_cast i e
  rw [hloop] at hr
  simp only [Option.some.injEq, Prod.mk.injEq] at hr
  obtain ⟨rfl, rfl⟩ := hr
  refine ⟨_, hm, ?_, ?_, ?_⟩
  · simp
  · simp
  · intro j hj; simp [Function.update_noteq hj]

/-- Worked instance: a buy of 10 at 100 and a sell of 4 at 100. -/
theorem matchOrder_partial_fill_witness :
    (Engine.single sampleSlot [⟨1, 'B', 7, 10, 100⟩] [⟨2, 'S', 7, 4, 100⟩]).buyOrder sampleSlot =
      [⟨1, 'B', 7, 10, 100⟩] ∧
    (Engine.single sampleSlot [⟨1, 'B', 7, 10, 100⟩] [⟨2, 'S', 7, 4, 100⟩]).sellOrder sampleSlot =
      [⟨2, 'S', 7, 4, 100⟩] ∧
    (10 : Int) > 4 ∧ (4 : Int) > 0 ∧ (10 : Int) ≤ INT_MAX ∧ (100 : Int) ≥ 100 ∧
    ∃ e1, matchOrder ((sampleSlot : Nat) : Int)
        (Engine.single sampleSlot [⟨1, 'B', 7, 10, 100⟩] [⟨2, 'S', 7, 4, 100⟩]) =
        some ([⟨((sampleSlot : Nat) : Int), 4, 100⟩], e1) ∧
      e1.sellOrder sampleSlot = [] ∧ e1.buyOrder sampleSlot = [⟨1, 'B', 7, 10 - 4, 100⟩] ∧
      ∀ j, j ≠ sampleSlot →
        e1.buyOrder j = (Engine.single sampleSlot
          [⟨1, 'B', 7, 10, 100⟩] [⟨2, 'S', 7, 4, 100⟩]).buyOrder j ∧
        e1.sellOrder j = (Engine.single sampleSlot
          [⟨1, 'B', 7, 10, 100⟩] [⟨2, 'S', 7, 4, 100⟩]).sellOrder j :=
  ⟨by decide, by decide, by decide, by decide, by decide, by decide,
    matchOrder_partial_fill
      (Engine.single sampleSlot [⟨1, 'B', 7, 10, 100⟩] [⟨2, 'S', 7, 4, 100⟩]) sampleSlot
      1 2 'B' 'S' 7 7 10 4 100 100 (by decide) (by decide) (by decide) (by decide)
      (by decide) (by decide)⟩

/-- C12: idempotence on a drained book.  For every state and every instrument,
`matchOrder` returns, and `matchOrder` called again on the state it returned logs no trade
and returns that same state. -/
theorem matchOrder_idempotent (e : Engine) (i : Fin MAX_STOCKS) :
    ∃ trades e1, matchOrder ((i : Nat) : Int) e = some (trades, e1) ∧
      matchOrder ((i : Nat) : Int) e1 = some ([], e1) := by
  obtain ⟨trades, b, hr, -, hm⟩ := matchOrder_cast i e
  refine ⟨trades, _, hm, ?_⟩
  apply matchOrder_of_stop
  have hstop := matchLoop_final_stop _ _ _ _ hr
  have hb : ({ sellOrder := Function.update e.sellOrder i b.sell,
               buyOrder := Function.update e.buyOrder i b.buy } : Engine).book i = b := by
    simp [Engine.book]
  rw [hb]
  exact hstop

/-! ## Ties at the extreme price -/

/-- C13: selection after removal.  On a buy list (all orders of type `'B'`, pairwise
different addresses) in which two different orders `x` and `y` share the maximum price,
`getBestOrder` returns an order at that price, and after `removeOrder` of exactly the
returned order the next `getBestOrder` returns a different order of the list, again at the
maximum price. -/
theorem getBestOrder_after_remove (type : Char) (l : OrderList) (x y : Order)
    (hd : distinctAddr l) (hall : ∀ o ∈ l, o.type = 'B')
    (hx : x ∈ l) (hy : y ∈ l) (hxy : x.addr ≠ y.addr) (hpr : x.price = y.price)
    (hmax : ∀ o ∈ l, o.price ≤ x.price) :
    ∃ b1 b2, getBestOrder type l = some b1 ∧ b1.price = x.price ∧
      getBestOrder type (removeOrder b1.addr l) = some b2 ∧
      b2 ∈ l ∧ b2.addr ≠ b1.addr ∧ b2.price = x.price := by
  cases hb : getBestOrder type l with
  | none =>
    have := (getBestOrder_eq_none type l).1 hb
    rw [this] at hx
    simp at hx
  | some b1 =>
    have hb1 := getBestOrder_mem type l b1 hb
    have hb1max := getBestOrder_buy_max type l b1 hall hb
    have hp1 : b1.price = x.price := le_antisymm (hmax b1 hb1) (hb1max x hx)
    obtain ⟨l1, l2, hl, h1, h2⟩ := split_of_mem l b1 hd hb1
    have hrem : removeOrder b1.addr l = l1 ++ l2 := by
      rw [hl]; exact removeOrder_split b1.addr l1 l2 b1 h1 rfl
    have hsub : ∀ o ∈ l1 ++ l2, o ∈ l ∧ o.addr ≠ b1.addr := by
      intro o ho
      rw [hl]
      rcases List.mem_append.1 ho with h | h
      · exact ⟨by simp [h], h1 o h⟩
      · exact ⟨by simp [h], h2 o h⟩
    have hother : ∃ z ∈ l1 ++ l2, z.price = x.price := by
      have pick : ∀ z ∈ l, z.addr ≠ b1.addr → z ∈ l1 ++ l2 := by
        intro z hz hza
        rw [hl] at hz
        rcases List.mem_append.1 hz with h | h
        · exact List.mem_append.2 (Or.inl h)
        · rcases List.mem_cons.1 h with h | h
          · rw [h] at hza; exact absurd rfl hza
          · exact List.mem_append.2 (Or.inr h)
      by_cases hxa : x.addr = b1.addr
      · exact ⟨y, pick y hy (fun h => hxy (hxa.trans h.symm)), hpr.symm⟩
      · exact ⟨x, pick x hx hxa, rfl⟩
    obtain ⟨z, hz, hzp⟩ := hother
    cases hb2 : getBestOrder type (l1 ++ l2) with
    | none =>
      have := (getBestOrder_eq_none type (l1 ++ l2)).1 hb2
      rw [this] at hz
      simp at hz
    | some b2 =>
      have hb2m := getBestOrder_mem type _ b2 hb2
      have hall2 : ∀ o ∈ l1 ++ l2, o.type = 'B' := fun o ho => hall o (hsub o ho).1
      have hb2max := getBestOrder_buy_max type _ b2 hall2 hb2
      refine ⟨b1, b2, rfl, hp1, by rw [hrem]; exact hb2, (hsub b2 hb2m).1, (hsub b2 hb2m).2, ?_⟩
      have := hb2max z hz
      have := hmax b2 (hsub b2 hb2m).1
      omega

/-- Worked instance: buy orders at prices 80, 95, 95. -/
theorem getBestOrder_after_remove_witness :
    distinctAddr [⟨1, 'B', 0, 5, 80⟩, ⟨2, 'B', 0, 5, 95⟩, ⟨3, 'B', 0, 5, 95⟩] ∧
    (∀ o ∈ ([⟨1, 'B', 0, 5, 80⟩, ⟨2, 'B', 0, 5, 95⟩, ⟨3, 'B', 0, 5, 95⟩] : OrderList),
      o.type = 'B' ∧ o.price ≤ 95) ∧
    ∃ b1 b2,
      getBestOrder 'B' [⟨1, 'B', 0, 5, 80⟩, ⟨2, 'B', 0, 5, 95⟩, ⟨3, 'B', 0, 5, 95⟩] = some b1 ∧
      b1.price = 95 ∧
      getBestOrder 'B' (removeOrder b1.addr
        [⟨1, 'B', 0, 5, 80⟩, ⟨2, 'B', 0, 5, 95⟩, ⟨3, 'B', 0, 5, 95⟩]) = some b2 ∧
      b2 ∈ ([⟨1, 'B', 0, 5, 80⟩, ⟨2, 'B', 0, 5, 95⟩, ⟨3, 'B', 0, 5, 95⟩] : OrderList) ∧
      b2.addr ≠ b1.addr ∧ b2.price = 95 :=
  ⟨by decide, by decide,
    getBestOrder_after_remove 'B'
      [⟨1, 'B', 0, 5, 80⟩, ⟨2, 'B', 0, 5, 95⟩, ⟨3, 'B', 0, 5, 95⟩]
      ⟨2, 'B', 0, 5, 95⟩ ⟨3, 'B', 0, 5, 95⟩
      (by decide) (by decide) (by decide) (by decide) (by decide) (by decide) (by decide)⟩

theorem insertAll_eq_reverse (orders : List Order) : insertAll orders = orders.reverse := by
  have gen : ∀ (acc : OrderList) (os : List Order),
      os.foldl (fun l o => OrderList.addOrder o l) acc = os.reverse ++ acc := by
    intro acc os
    induction os generalizing acc with
    | nil => rfl
    | cons o rest ih => simp [List.foldl_cons, ih, OrderList.addOrder]
  simpa [insertAll] using gen [] orders

/-- On an all-`'B'` list the scan returns its starting candidate, or the first node
whose price is strictly above the candidate and above every node before it. -/
theorem scan_buy_first (b : Order) (l : OrderList) (r : Order)
    (hall : ∀ o ∈ l, o.type = 'B') (h : scan (some b) l = some r) :
    (r = b) ∨ ∃ l1 l2, l = l1 ++ r :: l2 ∧ b.price < r.price ∧ ∀ o ∈ l1, o.price < r.price := by
  induction l generalizing b with
  | nil => left; simpa [scan] using h.symm
  | cons c rest ih =>
    have hc : c.type = 'B' := hall c (List.mem_cons_self _ _)
    have hrest : ∀ o ∈ rest, o.type = 'B' := fun o ho => hall o (List.mem_cons_of_mem _ ho)
    have hne : ¬ ('B' = 'S') := by decide
    simp only [scan, hc, true_and, hne, false_and, or_false] at h
    split at h
    · rename_i hlt
      rcases ih c hrest h with h1 | ⟨l1, l2, hl, hlt2, hbefore⟩
      · right
        refine ⟨[], rest, by simp [h1], by rw [h1]; omega, by simp⟩
      · right
        refine ⟨c :: l1, l2, by simp [hl], by omega, ?_⟩
        intro o ho
        rcases List.mem_cons.1 ho with rfl | ho
        · exact hlt2
        · exact hbefore o ho
    · rename_i hlt
      rcases ih b hrest h with h1 | ⟨l1, l2, hl, hlt2, hbefore⟩
      · exact Or.inl h1
      · right
        refine ⟨c :: l1, l2, by simp [hl], hlt2, ?_⟩
        intro o ho
        rcases List.mem_cons.1 ho with rfl | ho
        · omega
        · exact hbefore o ho

/-- On an all-`'S'` list the scan returns its starting candidate, or the first node
whose price is strictly below the candidate and below every node before it. -/
theorem scan_sell_first (b : Order) (l : OrderList) (r : Order)
    (hall : ∀ o ∈ l, o.type = 'S') (h : scan (some b) l = some r) :
    (r = b) ∨ ∃ l1 l2, l = l1 ++ r :: l2 ∧ r.price < b.price ∧ ∀ o ∈ l1, r.price < o.price := by
  induction l generalizing b with
  | nil => left; simpa [scan] using h.symm
  | cons c rest ih =>
    have hc : c.type = 'S' := hall c (List.mem_cons_self _ _)
    have hrest : ∀ o ∈ rest, o.type = 'S' := fun o ho => hall o (List.mem_cons_of_mem _ ho)
    have hne : ¬ ('S' = 'B') := by decide
    simp only [scan, hc, true_and, hne, false_and, false_or] at h
    split at h
    · rename_i hlt
      rcases ih c hrest h with h1 | ⟨l1, l2, hl, hlt2, hbefore⟩
      · right
        refine ⟨[], rest, by simp [h1], by rw [h1]; omega, by simp⟩
      · right
        refine ⟨c :: l1, l2, by simp [hl], by omega, ?_⟩
        intro o ho
        rcases List.mem_cons.1 ho with rfl | ho
        · exact hlt2
        · exact hbefore o ho
    · rename_i hlt
      rcases ih b hrest h with h1 | ⟨l1, l2, hl, hlt2, hbefore⟩
      · exact Or.inl h1
      · right
        refine ⟨c :: l1, l2, by simp [hl], hlt2, ?_⟩
        intro o ho
        rcases List.mem_cons.1 ho with rfl | ho
        · omega
        · exact hbefore o ho

/-- The order `getBestOrder` returns is preceded in the list only by orders with a
strictly worse price. -/
theorem getBestOrder_first (type side : Char) (l : OrderList) (best : Order)
    (hside : side = 'B' ∨ side = 'S') (hall : ∀ o ∈ l, o.type = side)
    (h : getBestOrder type l = some best) :
    ∃ l1 l2, l = l1 ++ best :: l2 ∧
      ∀ o ∈ l1, if side = 'B' then o.price < best.price else best.price < o.price := by
  cases l with
  | nil => simp [getBestOrder, scan] at h
  | cons c rest =>
    simp only [getBestOrder, scan] at h
    have hrest : ∀ o ∈ rest, o.type = side := fun o ho => hall o (List.mem_cons_of_mem _ ho)
    have hSB : ¬ ('S' = 'B') := by decide
    rcases hside with rfl | rfl
    · rcases scan_buy_first c rest best hrest h with h1 | ⟨l1, l2, hl, hlt, hbefore⟩
      · exact ⟨[], rest, by simp [h1], by simp⟩
      · refine ⟨c :: l1, l2, by simp [hl], ?_⟩
        intro o ho
        simp only [if_true]
        rcases List.mem_cons.1 ho with rfl | ho
        · exact hlt
        · exact hbefore o ho
    · rcases scan_sell_first c rest best hrest h with h1 | ⟨l1, l2, hl, hlt, hbefore⟩
      · exact ⟨[], rest, by simp [h1], by simp⟩
      · refine ⟨c :: l1, l2, by simp [hl], ?_⟩
        intro o ho
        simp only [hSB, if_false]
        rcases List.mem_cons.1 ho with rfl | ho
        · exact hlt
        · exact hbefore o ho

/-- C14: tie-break.  Let a side be built from the empty list by inserting `orders` one
after the other (first element first), all of type `'B'` (`side = 'B'`) or all of type
`'S'` (`side = 'S'`).  If at least one order was inserted, `getBestOrder` returns an order
`best` with the extreme price such that every order inserted after `best` has a strictly
worse price: among the orders sharing the extreme price, `best` is the one inserted most
recently.  In the list, the orders inserted after `best` are exactly those between the
head and `best`, so `best` is the order with the extreme price closest to the head. -/
theorem getBestOrder_tie_break (type side : Char) (orders : List Order)
    (hside : side = 'B' ∨ side = 'S') (hall : ∀ o ∈ orders, o.type = side)
    (hne : orders ≠ []) :
    ∃ best earlier later, getBestOrder type (insertAll orders) = some best ∧
      orders = earlier ++ best :: later ∧
      insertAll orders = later.reverse ++ best :: earlier.reverse ∧
      (∀ o ∈ later, if side = 'B' then o.price < best.price else best.price < o.price) ∧
      (∀ o ∈ orders, if side = 'B' then o.price ≤ best.price else best.price ≤ o.price) := by
  have hrev := insertAll_eq_reverse orders
  have hall1 : ∀ o ∈ insertAll orders, o.type = side := by
    intro o ho
    rw [hrev] at ho
    exact hall o (List.mem_reverse.1 ho)
  cases hb : getBestOrder type (insertAll orders) with
  | none =>
    have h0 := (getBestOrder_eq_none type _).1 hb
    rw [hrev] at h0
    exact absurd (List.reverse_eq_nil_iff.1 h0) hne
  | some best =>
    obtain ⟨l1, l2, hl, hbefore⟩ := getBestOrder_first type side _ best hside hall1 hb
    have ho : orders = l2.reverse ++ best :: l1.reverse := by
      have h1 : orders = (insertAll orders).reverse := by rw [hrev, List.reverse_reverse]
      rw [h1, hl]
      simp
    refine ⟨best, l2.reverse, l1.reverse, rfl, ho, by simpa using hl, ?_, ?_⟩
    · intro o hmem
      exact hbefore o (List.mem_reverse.1 hmem)
    · intro o hmem
      have hmem1 : o ∈ insertAll orders := by rw [hrev]; exact List.mem_reverse.2 hmem
      have hSB : ¬ ('S' = 'B') := by decide
      rcases hside with rfl | rfl
      · simpa using getBestOrder_buy_max type _ best hall1 hb o hmem1
      · simpa [hSB] using getBestOrder_sell_min type _ best hall1 hb o hmem1

/-- Worked instance: buy orders at 95, 95 and 80 inserted in this order; the second one
is returned. -/
theorem getBestOrder_tie_break_witness :
    ('B' = 'B' ∨ 'B' = 'S') ∧
    (∀ o ∈ ([⟨3, 'B', 0, 5, 95⟩, ⟨2, 'B', 0, 5, 95⟩, ⟨1, 'B', 0, 5, 80⟩] : List Order),
      o.type = 'B') ∧
    getBestOrder 'B'
      (insertAll [⟨3, 'B', 0, 5, 95⟩, ⟨2, 'B', 0, 5, 95⟩, ⟨1, 'B', 0, 5, 80⟩]) =
      some ⟨2, 'B', 0, 5, 95⟩ ∧
    ∃ best earlier later,
      getBestOrder 'B'
        (insertAll [⟨3, 'B', 0, 5, 95⟩, ⟨2, 'B', 0, 5, 95⟩, ⟨1, 'B', 0, 5, 80⟩]) = some best ∧
      ([⟨3, 'B', 0, 5, 95⟩, ⟨2, 'B', 0, 5, 95⟩, ⟨1, 'B', 0, 5, 80⟩] : List Order) =
        earlier ++ best :: later ∧
      insertAll [⟨3, 'B', 0, 5, 95⟩, ⟨2, 'B', 0, 5, 95⟩, ⟨1, 'B', 0, 5, 80⟩] =
        later.reverse ++ best :: earlier.reverse ∧
      (∀ o ∈ later, if 'B' = 'B' then o.price < best.price else best.price < o.price) ∧
      (∀ o ∈ ([⟨3, 'B', 0, 5, 95⟩, ⟨2, 'B', 0, 5, 95⟩, ⟨1, 'B', 0, 5, 80⟩] : List Order),
        if 'B' = 'B' then o.price ≤ best.price else best.price ≤ o.price) :=
  ⟨by decide, by decide, by decide,
    getBestOrder_tie_break 'B' 'B'
      [⟨3, 'B', 0, 5, 95⟩, ⟨2, 'B', 0, 5, 95⟩, ⟨1, 'B', 0, 5, 80⟩]
      (by decide) (by decide) (by decide)⟩

/-! ## What the loop leaves of the orders -/

theorem subQuantity_fixedFields (a : Nat) (t : Int) (l : OrderList) :
    (subQuantity a t l).map Order.fixedFields = l.map Order.fixedFields := by
  simp only [subQuantity, List.map_map]
  apply List.map_congr_left
  intro o _
  simp only [Function.comp]
  split <;> rfl

theorem matchStep_fixedFields (t : Int) (b : Book) (tr : Trade) (b1 : Book)
    (h : matchStep t b = some (tr, b1)) :
    List.Sublist (b1.buy.map Order.fixedFields) (b.buy.map Order.fixedFields) ∧
    List.Sublist (b1.sell.map Order.fixedFields) (b.sell.map Order.fixedFields) := by
  obtain ⟨buy, sell, -, -, -, -, e1, e2⟩ := matchStep_some t b tr b1 h
  have k : ∀ (a : Nat) (q : Int) (l : OrderList),
      List.Sublist ((removeOrder a (subQuantity a q l)).map Order.fixedFields)
        (l.map Order.fixedFields) := by
    intro a q l
    have h1 := (removeOrder_sublist a (subQuantity a q l)).map Order.fixedFields
    rw [subQuantity_fixedFields] at h1
    exact h1
  constructor
  · rw [e1]; split
    · exact k _ _ _
    · rw [subQuantity_fixedFields]
  · rw [e2]; split
    · exact k _ _ _
    · rw [subQuantity_fixedFields]

theorem matchLoop_fixedFields (t : Int) (n : Nat) (b : Book) (r : List Trade × Book)
    (h : matchLoop t n b = some r) :
    List.Sublist (r.2.buy.map Order.fixedFields) (b.buy.map Order.fixedFields) ∧
    List.Sublist (r.2.sell.map Order.fixedFields) (b.sell.map Order.fixedFields) := by
  refine matchLoop_induction t (fun _ => True)
    (fun b _ b2 =>
      List.Sublist (b2.buy.map Order.fixedFields) (b.buy.map Order.fixedFields) ∧
      List.Sublist (b2.sell.map Order.fixedFields) (b.sell.map Order.fixedFields))
    ?_ ?_ n b r trivial h
  · intro b _ _
    exact ⟨List.Sublist.refl _, List.Sublist.refl _⟩
  · intro b tr b1 _ hstep
    obtain ⟨s1, s2⟩ := matchStep_fixedFields t b tr b1 hstep
    exact ⟨trivial, fun _ _ hQ => ⟨hQ.1.trans s1, hQ.2.trans s2⟩⟩

/-- After a fill of `m` the side holds only nodes it held before, none with a larger
quantity. -/
theorem fill_side_le (l1 l2 : OrderList) (x : Order) (m : Int)
    (hl : liveQuantities (l1 ++ x :: l2)) (hm0 : 0 < m) (hm : m ≤ x.quantity) :
    ∀ o1 ∈ (if wrapInt (x.quantity - m) = 0 then l1 ++ l2
        else l1 ++ { x with quantity := wrapInt (x.quantity - m) } :: l2),
      ∃ o ∈ l1 ++ x :: l2, o1.fixedFields = o.fixedFields ∧ o1.quantity ≤ o.quantity := by
  have hx := hl x (by simp)
  have hI : isInt (x.quantity - m) := by
    unfold isInt INT_MIN
    unfold INT_MAX at hx ⊢
    omega
  rw [wrapInt_of_isInt _ hI]
  intro o1 ho1
  split at ho1
  · rcases List.mem_append.1 ho1 with h | h
    · exact ⟨o1, by simp [h], rfl, le_refl _⟩
    · exact ⟨o1, by simp [h], rfl, le_refl _⟩
  · rcases List.mem_append.1 ho1 with h | h
    · exact ⟨o1, by simp [h], rfl, le_refl _⟩
    · rcases List.mem_cons.1 h with h | h
      · refine ⟨x, by simp, by rw [h]; rfl, ?_⟩
        rw [h]; simp only; omega
      · exact ⟨o1, by simp [h], rfl, le_refl _⟩

theorem matchStep_quantity_le (t : Int) (b : Book) (tr : Trade) (b1 : Book)
    (hdB : distinctAddr b.buy) (hdS : distinctAddr b.sell)
    (hlB : liveQuantities b.buy) (hlS : liveQuantities b.sell)
    (h : matchStep t b = some (tr, b1)) :
    (∀ o1 ∈ b1.buy, ∃ o ∈ b.buy, o1.fixedFields = o.fixedFields ∧ o1.quantity ≤ o.quantity) ∧
    (∀ o1 ∈ b1.sell, ∃ o ∈ b.sell, o1.fixedFields = o.fixedFields ∧
      o1.quantity ≤ o.quantity) := by
  obtain ⟨buy, sell, l1, l2, r1, r2, -, -, -, hl, hr, -, e1, e2⟩ :=
    matchStep_split t b tr b1 hdB hdS h
  rw [hl] at hlB
  rw [hr] at hlS
  have hbq := hlB buy (by simp)
  have hsq := hlS sell (by simp)
  have hm0 : 0 < min buy.quantity sell.quantity := lt_min hbq.1 hsq.1
  constructor
  · rw [e1, hl]; exact fill_side_le l1 l2 buy _ hlB hm0 (min_le_left _ _)
  · rw [e2, hr]; exact fill_side_le r1 r2 sell _ hlS hm0 (min_le_right _ _)

theorem matchLoop_quantity_le (t : Int) (n : Nat) (b : Book) (r : List Trade × Book)
    (hdB : distinctAddr b.buy) (hdS : distinctAddr b.sell)
    (hlB : liveQuantities b.buy) (hlS : liveQuantities b.sell)
    (h : matchLoop t n b = some r) :
    (∀ o1 ∈ r.2.buy, ∃ o ∈ b.buy, o1.fixedFields = o.fixedFields ∧ o1.quantity ≤ o.quantity) ∧
    (∀ o1 ∈ r.2.sell, ∃ o ∈ b.sell, o1.fixedFields = o.fixedFields ∧
      o1.quantity ≤ o.quantity) := by
  refine matchLoop_induction t
    (fun b => distinctAddr b.buy ∧ distinctAddr b.sell ∧
      liveQuantities b.buy ∧ liveQuantities b.sell)
    (fun b _ b2 =>
      (∀ o1 ∈ b2.buy, ∃ o ∈ b.buy, o1.fixedFields = o.fixedFields ∧
        o1.quantity ≤ o.quantity) ∧
      (∀ o1 ∈ b2.sell, ∃ o ∈ b.sell, o1.fixedFields = o.fixedFields ∧
        o1.quantity ≤ o.quantity))
    ?_ ?_ n b r ⟨hdB, hdS, hlB, hlS⟩ h
  · intro b _ _
    exact ⟨fun o ho => ⟨o, ho, rfl, le_refl _⟩, fun o ho => ⟨o, ho, rfl, le_refl _⟩⟩
  · intro b tr b1 hInv hstep
    obtain ⟨-, -, -, v1, v2, d1, d2⟩ :=
      matchStep_live t b tr b1 hInv.1 hInv.2.1 hInv.2.2.1 hInv.2.2.2 hstep
    obtain ⟨q1, q2⟩ :=
      matchStep_quantity_le t b tr b1 hInv.1 hInv.2.1 hInv.2.2.1 hInv.2.2.2 hstep
    refine ⟨⟨d1, d2, v1, v2⟩, ?_⟩
    intro _ b2 hQ
    constructor
    · intro o2 ho2
      obtain ⟨o1, ho1, f1, c1⟩ := hQ.1 o2 ho2
      obtain ⟨o, ho, f, c⟩ := q1 o1 ho1
      exact ⟨o, ho, f1.trans f, le_trans c1 c⟩
    · intro o2 ho2
      obtain ⟨o1, ho1, f1, c1⟩ := hQ.2 o2 ho2
      obtain ⟨o, ho, f, c⟩ := q2 o1 ho1
      exact ⟨o, ho, f1.trans f, le_trans c1 c⟩

/-- C15: `matchOrder` creates no order and changes no order's type, ticket or price.  For
every state and instrument it returns, and on each side the sequence of (address, type,
ticket, price) of the orders resting afterwards is a subsequence of that sequence before
the call: every order left was on that side before with the same type, ticket and price,
and the orders left keep their relative order.  When moreover the nodes of each side have
pairwise different addresses and the quantities are positive `int`s, every order left has
a quantity less than or equal to the quantity it had before the call. -/
theorem matchOrder_survivors (e : Engine) (i : Fin MAX_STOCKS) :
    ∃ trades e1, matchOrder ((i : Nat) : Int) e = some (trades, e1) ∧
      List.Sublist ((e1.buyOrder i).map Order.fixedFields)
        ((e.buyOrder i).map Order.fixedFields) ∧
      List.Sublist ((e1.sellOrder i).map Order.fixedFields)
        ((e.sellOrder i).map Order.fixedFields) ∧
      (distinctAddr (e.buyOrder i) → distinctAddr (e.sellOrder i) →
        liveQuantities (e.buyOrder i) → liveQuantities (e.sellOrder i) →
        (∀ o1 ∈ e1.buyOrder i, ∃ o ∈ e.buyOrder i,
          o1.fixedFields = o.fixedFields ∧ o1.quantity ≤ o.quantity) ∧
        (∀ o1 ∈ e1.sellOrder i, ∃ o ∈ e.sellOrder i,
          o1.fixedFields = o.fixedFields ∧ o1.quantity ≤ o.quantity)) := by
  obtain ⟨trades, b, hr, -, hm⟩ := matchOrder_cast i e
  obtain ⟨s1, s2⟩ := matchLoop_fixedFields _ _ (e.book i) (trades, b) hr
  refine ⟨trades, _, hm, by simpa using s1, by simpa using s2, ?_⟩
  intro hdB hdS hlB hlS
  obtain ⟨q1, q2⟩ := matchLoop_quantity_le _ _ (e.book i) (trades, b) hdB hdS hlB hlS hr
  constructor
  · intro o1 ho1
    have ho : o1 ∈ b.buy := by simpa using ho1
    exact q1 o1 ho
  · intro o1 ho1
    have ho : o1 ∈ b.sell := by simpa using ho1
    exact q2 o1 ho

/-- Worked instance: on the sample state the orders left have quantities no larger than
before. -/
theorem matchOrder_survivors_witness :
    distinctAddr (sampleEngine.buyOrder sampleSlot) ∧
    distinctAddr (sampleEngine.sellOrder sampleSlot) ∧
    liveQuantities (sampleEngine.buyOrder sampleSlot) ∧
    liveQuantities (sampleEngine.sellOrder sampleSlot) ∧
    ∃ trades e1, matchOrder ((sampleSlot : Nat) : Int) sampleEngine = some (trades, e1) ∧
      List.Sublist ((e1.buyOrder sampleSlot).map Order.fixedFields)
        ((sampleEngine.buyOrder sampleSlot).map Order.fixedFields) ∧
      List.Sublist ((e1.sellOrder sampleSlot).map Order.fixedFields)
        ((sampleEngine.sellOrder sampleSlot).map Order.fixedFields) ∧
      (∀ o1 ∈ e1.buyOrder sampleSlot, ∃ o ∈ sampleEngine.buyOrder sampleSlot,
        o1.fixedFields = o.fixedFields ∧ o1.quantity ≤ o.quantity) ∧
      (∀ o1 ∈ e1.sellOrder sampleSlot, ∃ o ∈ sampleEngine.sellOrder sampleSlot,
        o1.fixedFields = o.fixedFields ∧ o1.quantity ≤ o.quantity) :=
  ⟨by decide, by decide, by decide, by decide,
    (matchOrder_survivors sampleEngine sampleSlot).elim fun trades h =>
      h.elim fun e1 h1 =>
        ⟨trades, e1, h1.1, h1.2.1, h1.2.2.1,
          h1.2.2.2 (by decide) (by decide) (by decide) (by decide)⟩⟩

/-! ## Quantities at intake -/

/-- C17, counterexample: `addOrder` with quantity `-5` is not rejected; the order is put
in the buy list of instrument 7 with that quantity. -/
theorem addOrder_nonpositive_counterexample :
    ∃ e1, addOrder 1 'B' 7 (-5) 50 Engine.empty = some e1 ∧
      e1.buyOrder sampleSlot = [⟨1, 'B', 7, -5, 50⟩] ∧
      e1.buyOrder sampleSlot ≠ Engine.empty.buyOrder sampleSlot :=
  ⟨_, rfl, by decide, by decide⟩

/-- C17, as amended: `addOrder` does not validate the quantity.  For every call with
`quantity ≤ 0` and `0 ≤ ticket < 1024` the call returns normally and the order, with the
quantity as given, is the new head of the buy list of `ticket` when `type` is `'B'` and of
the sell list of `ticket` otherwise. -/
theorem addOrder_accepts_nonpositive (e : Engine) (addr : Nat) (type : Char)
    (ticket quantity price : Int)
    (hq : quantity ≤ 0) (h0 : 0 ≤ ticket) (h1 : ticket < 1024) :
    ∃ (i : Fin MAX_STOCKS) (e1 : Engine), ((i : Nat) : Int) = ticket ∧
      addOrder addr type ticket quantity price e = some e1 ∧
      (type = 'B' → e1.buyOrder i = ⟨addr, type, ticket, quantity, price⟩ :: e.buyOrder i) ∧
      (type ≠ 'B' →
        e1.sellOrder i = ⟨addr, type, ticket, quantity, price⟩ :: e.sellOrder i) ∧
      ∃ o, (o ∈ e1.buyOrder i ∨ o ∈ e1.sellOrder i) ∧ o.quantity = quantity ∧
        o.quantity ≤ 0 := by
  obtain ⟨i, hi, hslot⟩ := slot_of_range ticket h0 h1
  by_cases hty : type = 'B'
  · refine ⟨i, ⟨e.sellOrder, Function.update e.buyOrder i
        (OrderList.addOrder ⟨addr, type, ticket, quantity, price⟩ (e.buyOrder i))⟩, hi,
      by simp [addOrder, hslot, hty], ?_, ?_, ?_⟩
    · intro _; simp [OrderList.addOrder]
    · intro h; exact absurd hty h
    · exact ⟨⟨addr, type, ticket, quantity, price⟩, by simp [OrderList.addOrder], rfl, hq⟩
  · refine ⟨i, ⟨Function.update e.sellOrder i
        (OrderList.addOrder ⟨addr, type, ticket, quantity, price⟩ (e.sellOrder i)),
        e.buyOrder⟩, hi, by simp [addOrder, hslot, hty], ?_, ?_, ?_⟩
    · intro h; exact absurd h hty
    · intro _; simp [OrderList.addOrder]
    · exact ⟨⟨addr, type, ticket, quantity, price⟩, by simp [OrderList.addOrder], rfl, hq⟩

/-- Worked instance: a buy order of quantity 0 for instrument 7 added to the sample
state. -/
theorem addOrder_accepts_nonpositive_witness :
    (0 : Int) ≤ 0 ∧ (0 : Int) ≤ 7 ∧ (7 : Int) < 1024 ∧
    ∃ (i : Fin MAX_STOCKS) (e1 : Engine), ((i : Nat) : Int) = 7 ∧
      addOrder 5 'B' 7 0 120 sampleEngine = some e1 ∧
      ('B' = 'B' → e1.buyOrder i = ⟨5, 'B', 7, 0, 120⟩ :: sampleEngine.buyOrder i) ∧
      ('B' ≠ 'B' → e1.sellOrder i = ⟨5, 'B', 7, 0, 120⟩ :: sampleEngine.sellOrder i) ∧
      ∃ o, (o ∈ e1.buyOrder i ∨ o ∈ e1.sellOrder i) ∧ o.quantity = 0 ∧ o.quantity ≤ 0 :=
  ⟨by decide, by decide, by decide,
    addOrder_accepts_nonpositive sampleEngine 5 'B' 7 0 120 (by decide) (by decide)
      (by decide)⟩

/-! ## Trade prices and untyped orders -/

/-- On a buy side of type-`'B'` orders, a pass trades at the largest resting buy price,
which is the price of a resting buy order. -/
theorem matchStep_price (t : Int) (b : Book) (tr : Trade) (b1 : Book)
    (hB : ∀ o ∈ b.buy, o.type = 'B') (h : matchStep t b = some (tr, b1)) :
    (∃ o ∈ b.buy, tr.price = o.price) ∧ ∀ o ∈ b.buy, o.price ≤ tr.price := by
  obtain ⟨buy, sell, hb, -, -, htr, -, -⟩ := matchStep_some t b tr b1 h
  have hp : tr.price = buy.price := by rw [htr]
  refine ⟨⟨buy, getBestOrder_mem _ _ _ hb, hp⟩, ?_⟩
  intro o ho
  rw [hp]
  exact getBestOrder_buy_max 'B' b.buy buy hB hb o ho

theorem matchLoop_prices (t : Int) (n : Nat) (b : Book) (r : List Trade × Book)
    (hB : ∀ o ∈ b.buy, o.type = 'B') (h : matchLoop t n b = some r) :
    List.Pairwise (fun t1 t2 => t1.price ≥ t2.price) r.1 ∧
    ∀ tr ∈ r.1, ∃ o ∈ b.buy, tr.price = o.price := by
  refine matchLoop_induction t (fun b => ∀ o ∈ b.buy, o.type = 'B')
    (fun b ts _ => List.Pairwise (fun t1 t2 => t1.price ≥ t2.price) ts ∧
      ∀ tr ∈ ts, ∃ o ∈ b.buy, tr.price = o.price)
    ?_ ?_ n b r hB h
  · intro b _ _
    exact ⟨List.Pairwise.nil, by simp⟩
  · intro b tr b1 hInv hstep
    obtain ⟨⟨o0, ho0, hp0⟩, hmax⟩ := matchStep_price t b tr b1 hInv hstep
    have back : ∀ o1 ∈ b1.buy, ∃ o ∈ b.buy, o1.type = o.type ∧ o1.price = o.price := by
      intro o1 ho1
      obtain ⟨o, ho, -, hty, -, hpr⟩ := matchStep_buy_mem t b tr b1 hstep o1 ho1
      exact ⟨o, ho, hty, hpr⟩
    refine ⟨?_, ?_⟩
    · intro o1 ho1
      obtain ⟨o, ho, hty, -⟩ := back o1 ho1
      rw [hty]; exact hInv o ho
    · intro ts _ hQ
      have hts : ∀ x ∈ ts, ∃ o ∈ b.buy, x.price = o.price := by
        intro x hx
        obtain ⟨o1, ho1, hx1⟩ := hQ.2 x hx
        obtain ⟨o, ho, -, hpr⟩ := back o1 ho1
        exact ⟨o, ho, hx1.trans hpr⟩
      refine ⟨List.Pairwise.cons ?_ hQ.1, ?_⟩
      · intro x hx
        obtain ⟨o, ho, hxo⟩ := hts x hx
        have := hmax o ho
        simp only [ge_iff_le]
        omega
      · intro x hx
        rcases List.mem_cons.1 hx with rfl | hx
        · exact ⟨o0, ho0, hp0⟩
        · exact hts x hx

/-- C19: when the buy orders of the instrument all have type `'B'`, the prices of the
trades logged by one call of `matchOrder`, in the order they were executed, never
increase: every earlier trade has a price greater than or equal to that of every later
one.  Each pass that trades does so at the largest buy price resting at that moment, and
every buy order resting after the pass was resting before it with the same price, so the
set of resting buy orders only shrinks. -/
theorem matchOrder_prices_nonincreasing (e : Engine) (i : Fin MAX_STOCKS)
    (hB : ∀ o ∈ e.buyOrder i, o.type = 'B') :
    (∀ tr b1, matchStep ((i : Nat) : Int) (e.book i) = some (tr, b1) →
      (∃ o ∈ e.buyOrder i, tr.price = o.price) ∧ (∀ o ∈ e.buyOrder i, o.price ≤ tr.price) ∧
      (∀ o1 ∈ b1.buy, ∃ o ∈ e.buyOrder i,
        o1.addr = o.addr ∧ o1.type = o.type ∧ o1.price = o.price) ∧
      b1.buy.length ≤ (e.buyOrder i).length) ∧
    ∃ trades e1, matchOrder ((i : Nat) : Int) e = some (trades, e1) ∧
      List.Pairwise (fun t1 t2 => t1.price ≥ t2.price) trades ∧
      ∀ tr ∈ trades, ∃ o ∈ e.buyOrder i, tr.price = o.price := by
  constructor
  · intro tr b1 hstep
    obtain ⟨h1, h2⟩ := matchStep_price _ (e.book i) tr b1 hB hstep
    refine ⟨h1, h2, ?_, (matchStep_lengths _ _ _ _ hstep).1⟩
    intro o1 ho1
    obtain ⟨o, ho, ha, hty, -, hpr⟩ := matchStep_buy_mem _ (e.book i) tr b1 hstep o1 ho1
    exact ⟨o, ho, ha, hty, hpr⟩
  · obtain ⟨trades, b, hr, -, hm⟩ := matchOrder_cast i e
    obtain ⟨p1, p2⟩ := matchLoop_prices _ _ (e.book i) (trades, b) hB hr
    exact ⟨trades, _, hm, p1, p2⟩

/-- Worked instance: three bids at 100, 50 and 98 against asks of 12 at 90 and 4 at 95
trade at 100, 98, 98. -/
theorem matchOrder_prices_nonincreasing_witness :
    (∀ o ∈ (Engine.single sampleSlot
        [⟨1, 'B', 7, 10, 100⟩, ⟨3, 'B', 7, 5, 50⟩, ⟨5, 'B', 7, 9, 98⟩]
        [⟨2, 'S', 7, 12, 90⟩, ⟨4, 'S', 7, 4, 95⟩]).buyOrder sampleSlot, o.type = 'B') ∧
    ∃ trades e1, matchOrder ((sampleSlot : Nat) : Int)
        (Engine.single sampleSlot
          [⟨1, 'B', 7, 10, 100⟩, ⟨3, 'B', 7, 5, 50⟩, ⟨5, 'B', 7, 9, 98⟩]
          [⟨2, 'S', 7, 12, 90⟩, ⟨4, 'S', 7, 4, 95⟩]) = some (trades, e1) ∧
      List.Pairwise (fun t1 t2 => t1.price ≥ t2.price) trades ∧
      ∀ tr ∈ trades, ∃ o ∈ (Engine.single sampleSlot
          [⟨1, 'B', 7, 10, 100⟩, ⟨3, 'B', 7, 5, 50⟩, ⟨5, 'B', 7, 9, 98⟩]
          [⟨2, 'S', 7, 12, 90⟩, ⟨4, 'S', 7, 4, 95⟩]).buyOrder sampleSlot,
        tr.price = o.price :=
  ⟨by decide,
    (matchOrder_prices_nonincreasing
      (Engine.single sampleSlot
        [⟨1, 'B', 7, 10, 100⟩, ⟨3, 'B', 7, 5, 50⟩, ⟨5, 'B', 7, 9, 98⟩]
        [⟨2, 'S', 7, 12, 90⟩, ⟨4, 'S', 7, 4, 95⟩])
      sampleSlot (by decide)).2⟩

theorem scan_untyped (b : Order) (l : OrderList)
    (hno : ∀ o ∈ l, o.type ≠ 'B' ∧ o.type ≠ 'S') : scan (some b) l = some b := by
  induction l with
  | nil => rfl
  | cons c rest ih =>
    have hc := hno c (List.mem_cons_self _ _)
    simp only [scan, hc.1, hc.2, false_and, or_self, if_false]
    exact ih (fun o ho => hno o (List.mem_cons_of_mem _ ho))

/-- C20: `getBestOrder` compares prices according to the type field of each scanned
order; its `type` argument changes nothing.  On a non-empty list in which no order has
type `'B'` or `'S'` it returns the head, the order inserted last, whatever the prices and
whatever the argument; such lists arise because `addOrder` puts an order of any type
other than `'B'` in the sell list; and the order returned need not have the smallest
price. -/
theorem getBestOrder_untyped_head (type : Char) (head : Order) (rest : OrderList)
    (hno : ∀ o ∈ head :: rest, o.type ≠ 'B' ∧ o.type ≠ 'S') :
    getBestOrder type (head :: rest) = some head ∧
    getBestOrder type (OrderList.addOrder head rest) = some head ∧
    (∀ (t1 t2 : Char) (l : OrderList), getBestOrder t1 l = getBestOrder t2 l) ∧
    (∀ (e : Engine) (i : Fin MAX_STOCKS) (addr : Nat) (ty : Char) (quantity price : Int),
      ty ≠ 'B' → ∃ e1, addOrder addr ty ((i : Nat) : Int) quantity price e = some e1 ∧
        e1.sellOrder i = ⟨addr, ty, ((i : Nat) : Int), quantity, price⟩ :: e.sellOrder i ∧
        e1.buyOrder = e.buyOrder) ∧
    (∃ (l : OrderList) (best : Order), getBestOrder 'S' l = some best ∧
      ∃ o ∈ l, o.price < best.price) := by
  have hhead : getBestOrder type (head :: rest) = some head := by
    simp only [getBestOrder, scan]
    exact scan_untyped head rest (fun o ho => hno o (List.mem_cons_of_mem _ ho))
  refine ⟨hhead, hhead, fun _ _ _ => rfl, ?_, ?_⟩
  · intro e i addr ty quantity price hty
    refine ⟨⟨Function.update e.sellOrder i
      (OrderList.addOrder ⟨addr, ty, ((i : Nat) : Int), quantity, price⟩ (e.sellOrder i)),
      e.buyOrder⟩, by simp [addOrder, slot_cast, hty], by simp [OrderList.addOrder], rfl⟩
  · exact ⟨[⟨1, 'X', 7, 5, 100⟩, ⟨2, 'X', 7, 5, 90⟩], ⟨1, 'X', 7, 5, 100⟩, by decide,
      ⟨2, 'X', 7, 5, 90⟩, by decide, by decide⟩

/-- Worked instance: two orders of type `'X'` at 100 and 90; the head at 100 is
returned to a call for the best sell order. -/
theorem getBestOrder_untyped_head_witness :
    (∀ o ∈ ([⟨1, 'X', 7, 5, 100⟩, ⟨2, 'X', 7, 5, 90⟩] : OrderList),
      o.type ≠ 'B' ∧ o.type ≠ 'S') ∧
    getBestOrder 'S' [⟨1, 'X', 7, 5, 100⟩, ⟨2, 'X', 7, 5, 90⟩] = some ⟨1, 'X', 7, 5, 100⟩ :=
  ⟨by decide,
    (getBestOrder_untyped_head 'S' ⟨1, 'X', 7, 5, 100⟩ [⟨2, 'X', 7, 5, 90⟩] (by decide)).1⟩

end StockTradingEngine
